import Mathlib

/-!
# Verification of the network-topology toolkit

A shallow embedding of the repository's core: the attributed undirected
graph model used throughout (networkx `Graph` usage), the topology
generators of `modules/topology_builder.py`, the metrics computation
`add_topology_metrics`, the failure simulation of `main.py`, and the
link-list parsing of `check_links.py`.  Graphs are node/edge association
lists over string identifiers, mirroring networkx insertion-order
semantics; networkx library routines used by the code are modelled from
their documented semantics (noted on each definition).
-/

deriving instance DecidableEq for Except

namespace NetSim

/-! ## Python string primitives used by the parsing code -/

/-- Whitespace characters removed by Python's `str.strip()`. -/
def isSpaceChar (c : Char) : Bool :=
  c = ' ' || c = '\t' || c = '\n' || c = '\x0d' || c = '\x0b' || c = '\x0c'

/-- `str.strip()` on a character list: drop whitespace from both ends. -/
def stripChars (l : List Char) : List Char :=
  ((l.dropWhile isSpaceChar).reverse.dropWhile isSpaceChar).reverse

/-- Python `str.strip()`. -/
def pyStrip (s : String) : String := ⟨stripChars s.data⟩

/-- `str.split(c, 1)` when `c` occurs: the part before the first `c` and
the part after it. -/
def splitFirst (c : Char) : List Char → List Char × List Char
  | [] => ([], [])
  | x :: xs =>
    if x = c then ([], xs)
    else
      let p := splitFirst c xs
      (x :: p.1, p.2)

/-- Python `str.lower()` (ASCII suffices for interface names). -/
def pyLower (s : String) : String := ⟨s.data.map Char.toLower⟩

theorem splitFirst_append (l r : List Char) (c : Char) (hl : c ∉ l) :
    splitFirst c (l ++ c :: r) = (l, r) := by
  induction l with
  | nil => simp [splitFirst]
  | cons x xs ih =>
    have hx : x ≠ c := by intro h; exact hl (by simp [h])
    have hxs : c ∉ xs := fun h => hl (List.mem_cons_of_mem _ h)
    simp [splitFirst, hx, ih hxs]

/-! ## The graph model

The repository manipulates `networkx.Graph` objects with string node ids.
Node attributes are the keyword arguments used across the code base;
absent attributes are `none` (networkx: key absent from the attribute
dict).  Edge attributes are always set in full by the code. -/

structure NodeAttrs where
  role : Option String := none
  device_type : Option String := none
  tier : Option String := none
  level : Option Nat := none
deriving Repr, DecidableEq

structure EdgeAttrs where
  bandwidth : Nat
  mtu : Nat
  up : Bool
  link_type : String
deriving Repr, DecidableEq

/-- An attributed undirected graph: node registry and edge registry in
insertion order, as networkx keeps them.  An edge is stored once, in the
orientation of its first `add_edge` call; lookups are symmetric. -/
structure Graph where
  nodes : List (String × NodeAttrs)
  edges : List (String × String × EdgeAttrs)
deriving Repr, DecidableEq

def emptyGraph : Graph := ⟨[], []⟩

def nodeIds (G : Graph) : List String := G.nodes.map (·.1)

def nodeCount (G : Graph) : Nat := G.nodes.length

def edgeCount (G : Graph) : Nat := G.edges.length

/-- Attribute lookup for a node id. -/
def lookupNode (G : Graph) (v : String) : Option NodeAttrs :=
  (G.nodes.find? (fun p => p.1 = v)).map (·.2)

/-- `G.has_edge(a, b)` / adjacency test (symmetric). -/
def adjB (G : Graph) (a b : String) : Bool :=
  G.edges.any (fun e => (e.1 = a && e.2.1 = b) || (e.1 = b && e.2.1 = a))

/-- Symmetric edge-attribute lookup (`G[a][b]`). -/
def lookupEdge (G : Graph) (a b : String) : Option EdgeAttrs :=
  (G.edges.find? (fun e => (e.1 = a && e.2.1 = b) || (e.1 = b && e.2.1 = a))).map (·.2.2)

/-- networkx `G.neighbors(v)`, in edge-registry order. -/
def neighbors (G : Graph) (v : String) : List String :=
  G.edges.filterMap (fun e =>
    if e.1 = v then some e.2.1 else if e.2.1 = v then some e.1 else none)

/-- networkx `G.degree(v)` (no self-loops arise anywhere in the code). -/
def degree (G : Graph) (v : String) : Nat := (neighbors G v).length

/-- Merge of attribute dicts: `G.add_node` on an existing node updates
the given keys and keeps the others. -/
def mergeAttrs (new old : NodeAttrs) : NodeAttrs :=
  { role := new.role <|> old.role
    device_type := new.device_type <|> old.device_type
    tier := new.tier <|> old.tier
    level := new.level <|> old.level }

/-- networkx `G.add_node(v, **attrs)`: idempotent on ids, merging
attributes; a new node is appended to the registry. -/
def add_node (G : Graph) (v : String) (a : NodeAttrs) : Graph :=
  if v ∈ nodeIds G then
    { G with nodes := G.nodes.map (fun p => if p.1 = v then (v, mergeAttrs a p.2) else p) }
  else
    { G with nodes := G.nodes ++ [(v, a)] }

/-- Register an id with an empty attribute dict unless present (the
implicit node creation inside networkx `add_edge`). -/
def ensureNode (G : Graph) (v : String) : Graph :=
  if v ∈ nodeIds G then G else { G with nodes := G.nodes ++ [(v, {})] }

/-- Set the edge once both endpoints exist: overwrite the attributes of
an existing edge, else append a new one. -/
def addEdgeRaw (G : Graph) (a b : String) (attrs : EdgeAttrs) : Graph :=
  if adjB G a b then
    { G with edges := G.edges.map (fun e =>
        if (e.1 = a && e.2.1 = b) || (e.1 = b && e.2.1 = a) then (e.1, e.2.1, attrs) else e) }
  else
    { G with edges := G.edges ++ [(a, b, attrs)] }

/-- networkx `G.add_edge(a, b, **attrs)`: silently adds missing
endpoints (with empty attribute dicts), then overwrites the attributes
of an existing edge or appends a new one. -/
def add_edge (G : Graph) (a b : String) (attrs : EdgeAttrs) : Graph :=
  addEdgeRaw (ensureNode (ensureNode G a) b) a b attrs

/-- networkx `G.remove_node(v)`: drops the node and every incident
edge.  (The repository always checks membership first.) -/
def remove_node (G : Graph) (v : String) : Graph :=
  { nodes := G.nodes.filter (fun p => p.1 ≠ v)
    edges := G.edges.filter (fun e => e.1 ≠ v ∧ e.2.1 ≠ v) }

/-- networkx `nx.union(G, H)` on the disjoint graphs the hybrid builder
feeds it (networkx raises on overlap; the repository only unions
disjoint groups). -/
def nx_union (G H : Graph) : Graph :=
  ⟨G.nodes ++ H.nodes, G.edges ++ H.edges⟩

/-! ### Well-formedness invariants maintained by the operations -/

/-- Every edge endpoint is a registered node (networkx invariant). -/
abbrev EdgesWf (G : Graph) : Prop :=
  ∀ e ∈ G.edges, e.1 ∈ nodeIds G ∧ e.2.1 ∈ nodeIds G

/-- Node ids are unique in the registry (networkx: nodes form a dict). -/
abbrev NodesNodup (G : Graph) : Prop := (nodeIds G).Nodup

theorem nodeIds_add_node_mem (G : Graph) (v : String) (a : NodeAttrs) (h : v ∈ nodeIds G) :
    nodeIds (add_node G v a) = nodeIds G := by
  unfold add_node
  rw [if_pos h]
  simp only [nodeIds, List.map_map]
  apply List.map_congr_left
  intro p _
  by_cases hp : p.1 = v <;> simp [hp]

theorem nodeIds_add_node_new (G : Graph) (v : String) (a : NodeAttrs) (h : v ∉ nodeIds G) :
    nodeIds (add_node G v a) = nodeIds G ++ [v] := by
  unfold add_node
  rw [if_neg h]
  simp [nodeIds]

theorem edges_add_node (G : Graph) (v : String) (a : NodeAttrs) :
    (add_node G v a).edges = G.edges := by
  unfold add_node
  by_cases h : v ∈ nodeIds G <;> simp [h]

theorem mem_nodeIds_add_node (G : Graph) (v w : String) (a : NodeAttrs) :
    w ∈ nodeIds (add_node G v a) ↔ w ∈ nodeIds G ∨ w = v := by
  by_cases h : v ∈ nodeIds G
  · rw [nodeIds_add_node_mem G v a h]
    constructor
    · exact Or.inl
    · rintro (hw | rfl) <;> [exact hw; exact h]
  · rw [nodeIds_add_node_new G v a h]; simp

theorem nodeIds_remove_node (G : Graph) (v : String) :
    nodeIds (remove_node G v) = (nodeIds G).filter (fun w => w ≠ v) := by
  simp only [remove_node, nodeIds]
  induction G.nodes with
  | nil => rfl
  | cons p ps ih =>
    by_cases hp : p.1 = v
    · simp only [List.filter_cons, List.map_cons, hp]
      simpa using ih
    · simp only [List.filter_cons, List.map_cons, hp]
      simp only [decide_not, decide_eq_true_eq] at *
      simp [hp, ih]

theorem adjB_symm (G : Graph) (a b : String) : adjB G a b = adjB G b a := by
  unfold adjB
  congr 1
  funext e
  by_cases h1 : e.1 = a <;> by_cases h2 : e.2.1 = b <;>
    by_cases h3 : e.1 = b <;> by_cases h4 : e.2.1 = a <;> simp [h1, h2, h3, h4]

theorem adjB_mem_nodeIds (G : Graph) (hwf : EdgesWf G) {a b : String}
    (h : adjB G a b = true) : a ∈ nodeIds G ∧ b ∈ nodeIds G := by
  unfold adjB at h
  rw [List.any_eq_true] at h
  obtain ⟨e, he, hcond⟩ := h
  have := hwf e he
  rcases Bool.or_eq_true _ _ |>.mp hcond with h' | h' <;>
    rw [Bool.and_eq_true, decide_eq_true_iff, decide_eq_true_iff] at h'
  · exact ⟨h'.1 ▸ this.1, h'.2 ▸ this.2⟩
  · exact ⟨h'.2 ▸ this.2, h'.1 ▸ this.1⟩

/-! ## Reachability

Breadth-first expansion: `ball G u k` is the list of vertices at
distance at most `k` from `u`, computed exactly as a BFS level
expansion.  It is the computational core behind the embedding of
`nx.is_connected`, `nx.diameter`, `nx.connected_components` and
`nx.articulation_points`. -/

/-- One BFS expansion step: append every yet-unvisited node adjacent to
the visited list. -/
def expandB (G : Graph) (s : List String) : List String :=
  s ++ (nodeIds G).filter (fun w => !decide (w ∈ s) && s.any (fun x => adjB G x w))

/-- Vertices within distance `k` of `u`. -/
def ball (G : Graph) (u : String) : Nat → List String
  | 0 => [u]
  | k + 1 => expandB G (ball G u k)

/-- The set of vertices reachable from `u` (BFS saturates within
`|nodes|` expansions). -/
def reachableFrom (G : Graph) (u : String) : List String :=
  ball G u (nodeIds G).length

/-- Reachability along edges, as a relation. -/
def Reach (G : Graph) (u v : String) : Prop :=
  Relation.ReflTransGen (fun a b => adjB G a b = true) u v

theorem Reach.symm {G : Graph} {u v : String} (h : Reach G u v) : Reach G v u := by
  have hs : Symmetric (fun a b => adjB G a b = true) := by
    intro a b hab
    rw [adjB_symm]
    exact hab
  exact (Relation.ReflTransGen.symmetric hs) h

theorem subset_expandB (G : Graph) (s : List String) : s ⊆ expandB G s :=
  List.subset_append_left _ _

theorem mem_expandB {G : Graph} {s : List String} {w : String} :
    w ∈ expandB G s ↔ w ∈ s ∨ (w ∈ nodeIds G ∧ w ∉ s ∧ ∃ x ∈ s, adjB G x w = true) := by
  unfold expandB
  rw [List.mem_append, List.mem_filter]
  simp [List.any_eq_true, and_assoc]

theorem mem_ball_self (G : Graph) (u : String) (k : Nat) : u ∈ ball G u k := by
  induction k with
  | zero => simp [ball]
  | succ k ih => exact subset_expandB G _ ih

theorem ball_mono_succ (G : Graph) (u : String) (k : Nat) :
    ball G u k ⊆ ball G u (k + 1) := subset_expandB G _

theorem ball_subset_nodeIds (G : Graph) (u : String) (hu : u ∈ nodeIds G) (k : Nat) :
    ball G u k ⊆ nodeIds G := by
  induction k with
  | zero =>
    intro w hw
    simp only [ball, List.mem_singleton] at hw
    exact hw ▸ hu
  | succ k ih =>
    intro w hw
    rcases mem_expandB.mp hw with h | h
    · exact ih h
    · exact h.1

theorem ball_nodup (G : Graph) (u : String) (hnd : NodesNodup G) (k : Nat) :
    (ball G u k).Nodup := by
  induction k with
  | zero => simp [ball]
  | succ k ih =>
    refine List.Nodup.append ih (List.Nodup.filter _ hnd) ?_
    intro w hw hwf
    rw [List.mem_filter] at hwf
    have := hwf.2
    simp only [Bool.and_eq_true, Bool.not_eq_true', decide_eq_false_iff_not] at this
    exact this.1 hw

theorem reach_of_mem_ball {G : Graph} {u w : String} {k : Nat}
    (h : w ∈ ball G u k) : Reach G u w := by
  induction k generalizing w with
  | zero =>
    simp only [ball, List.mem_singleton] at h
    exact h ▸ Relation.ReflTransGen.refl
  | succ k ih =>
    rcases mem_expandB.mp h with h' | h'
    · exact ih h'
    · obtain ⟨_, _, x, hx, hadj⟩ := h'
      exact Relation.ReflTransGen.tail (ih hx) hadj

theorem ball_stable_of_succ_eq (G : Graph) (u : String) {j : Nat}
    (h : ball G u (j + 1) = ball G u j) :
    ∀ m, j ≤ m → ball G u m = ball G u j := by
  intro m hm
  induction m with
  | zero => cases Nat.le_zero.mp hm; rfl
  | succ m ih =>
    rcases Nat.lt_or_ge m j with hlt | hge
    · have hj : j = m + 1 := by omega
      rw [hj]
    · have hm' : ball G u m = ball G u j := ih hge
      show expandB G (ball G u m) = ball G u j
      rw [hm']
      exact h

theorem ball_length_grow (G : Graph) (u : String) (k : Nat) :
    (∃ j, j ≤ k ∧ ball G u (j + 1) = ball G u j) ∨ k + 1 ≤ (ball G u k).length := by
  induction k with
  | zero => right; simp [ball]
  | succ k ih =>
    rcases ih with ⟨j, hj, hstable⟩ | hlen
    · exact Or.inl ⟨j, Nat.le_succ_of_le hj, hstable⟩
    · by_cases hs : ball G u (k + 1) = ball G u k
      · exact Or.inl ⟨k, Nat.le_succ k, hs⟩
      · right
        have hsplit : ball G u (k + 1) = ball G u k ++
            (nodeIds G).filter (fun w => !decide (w ∈ ball G u k) &&
              (ball G u k).any (fun x => adjB G x w)) := rfl
        have hne : (nodeIds G).filter (fun w => !decide (w ∈ ball G u k) &&
            (ball G u k).any (fun x => adjB G x w)) ≠ [] := by
          intro hnil
          apply hs
          rw [hsplit, hnil, List.append_nil]
        have : 1 ≤ ((nodeIds G).filter (fun w => !decide (w ∈ ball G u k) &&
            (ball G u k).any (fun x => adjB G x w))).length :=
          Nat.one_le_iff_ne_zero.mpr (fun h0 => hne (List.length_eq_zero.mp h0))
        rw [hsplit, List.length_append]
        omega

theorem ball_length_le (G : Graph) (u : String) (hu : u ∈ nodeIds G)
    (hnd : NodesNodup G) (k : Nat) : (ball G u k).length ≤ (nodeIds G).length :=
  ((ball_nodup G u hnd k).subperm (ball_subset_nodeIds G u hu k)).length_le

/-- BFS saturation: after `|nodes|` expansions, a further expansion adds
nothing. -/
theorem expandB_reachableFrom (G : Graph) (u : String) (hu : u ∈ nodeIds G)
    (hnd : NodesNodup G) : expandB G (reachableFrom G u) = reachableFrom G u := by
  set N := (nodeIds G).length with hN
  rcases ball_length_grow G u N with ⟨j, hj, hstable⟩ | hlen
  · have hNj : ball G u N = ball G u j := ball_stable_of_succ_eq G u hstable N hj
    have hNj1 : ball G u (N + 1) = ball G u j :=
      ball_stable_of_succ_eq G u hstable (N + 1) (Nat.le_succ_of_le hj)
    show ball G u (N + 1) = ball G u N
    rw [hNj, hNj1]
  · have := ball_length_le G u hu hnd N
    omega

theorem mem_reachableFrom_of_reach {G : Graph} {u w : String}
    (hwf : EdgesWf G) (hnd : NodesNodup G) (hu : u ∈ nodeIds G)
    (h : Reach G u w) : w ∈ reachableFrom G u := by
  induction h with
  | refl => exact mem_ball_self G u _
  | tail _ hadj ih =>
    rename_i x y _
    have hy : y ∈ nodeIds G := (adjB_mem_nodeIds G hwf hadj).2
    have : y ∈ expandB G (reachableFrom G u) := by
      rw [mem_expandB]
      by_cases hmem : y ∈ reachableFrom G u
      · exact Or.inl hmem
      · exact Or.inr ⟨hy, hmem, x, ih, hadj⟩
    rwa [expandB_reachableFrom G u hu hnd] at this

/-- BFS computes exactly the reachable set. -/
theorem mem_reachableFrom_iff {G : Graph} {u w : String}
    (hwf : EdgesWf G) (hnd : NodesNodup G) (hu : u ∈ nodeIds G) :
    w ∈ reachableFrom G u ↔ Reach G u w :=
  ⟨reach_of_mem_ball, mem_reachableFrom_of_reach hwf hnd hu⟩

/-! ## Connectivity, components, metrics

Embeddings of the networkx routines called by
`topology_builder.add_topology_metrics` and `main.analyze_topology` /
`main.simulate_failure`, modelled from the library's documented
semantics (noted on each definition). -/

/-- Python float results of the metric formulas, modelled as unreduced
integer fractions: every arithmetic step of the source is recorded
symbolically, so identical float computations compare equal.  (No claim
depends on identifying two differently-computed equal floats.) -/
structure PyFloat where
  num : Int
  den : Int
deriving Repr, DecidableEq

def fzero : PyFloat := ⟨0, 1⟩

/-- Float division of two natural quantities. -/
def fdivNat (a b : Nat) : PyFloat := ⟨a, b⟩

/-- Float addition. -/
def fadd (x y : PyFloat) : PyFloat := ⟨x.num * y.den + y.num * x.den, x.den * y.den⟩

/-- Division of a float by a natural count. -/
def fdivBy (x : PyFloat) (n : Nat) : PyFloat := ⟨x.num, x.den * n⟩

/-- `sum(...)` over floats, starting from integer 0. -/
def fsum (l : List PyFloat) : PyFloat := l.foldl fadd fzero

/-- The error raised by `nx.is_connected` on a graph without nodes
(`NetworkXPointlessConcept`). -/
inductive NXError where
  | pointlessConcept
deriving Repr, DecidableEq

/-- Connectivity by traversal, for a graph that has nodes: every node is
reachable from the first one. -/
def isConnectedB (G : Graph) : Bool :=
  match nodeIds G with
  | [] => true
  | v :: _ => (nodeIds G).all (fun w => decide (w ∈ reachableFrom G v))

/-- `nx.is_connected`: raises `NetworkXPointlessConcept` on the null
graph, otherwise tests reachability of all nodes from one node. -/
def nx_is_connected (G : Graph) : Except NXError Bool :=
  if G.nodes.length = 0 then .error .pointlessConcept else .ok (isConnectedB G)

/-- Shortest-path distance (BFS): the least `k` with `v` in the
`k`-ball around `u`; `none` when unreachable. -/
def distB (G : Graph) (u v : String) : Option Nat :=
  (List.range ((nodeIds G).length + 1)).find? (fun k => decide (v ∈ ball G u k))

/-- `nx.diameter` on a connected graph: the longest shortest-path
length over all node pairs (maximum eccentricity). -/
def nx_diameter (G : Graph) : Nat :=
  (nodeIds G).foldl (fun m u =>
    (nodeIds G).foldl (fun m2 v => max m2 ((distB G u v).getD 0)) m) 0

/-- Ordered pairs `(l[i], l[j])`, `i < j`. -/
def pairsOf {α : Type} : List α → List (α × α)
  | [] => []
  | x :: xs => xs.map (fun y => (x, y)) ++ pairsOf xs

/-- Local clustering coefficient: fraction of neighbor pairs that are
themselves adjacent, `0` for degree below 2 (networkx `clustering`). -/
def localClustering (G : Graph) (v : String) : PyFloat :=
  let ns := neighbors G v
  if ns.length < 2 then fzero
  else
    let links := ((pairsOf ns).filter (fun p => adjB G p.1 p.2)).length
    fdivNat (2 * links) (ns.length * (ns.length - 1))

/-- `nx.average_clustering`.  (On the null graph networkx divides by
zero, but `add_topology_metrics` always raises earlier at
`nx.is_connected`, so that case is unobservable; we return 0.) -/
def nx_average_clustering (G : Graph) : PyFloat :=
  if G.nodes.length = 0 then fzero
  else fdivBy (fsum ((nodeIds G).map (localClustering G))) G.nodes.length

/-- `nx.density`: `2·m / (n·(n−1))`, and `0` when `m = 0` or `n ≤ 1`. -/
def nx_density (G : Graph) : PyFloat :=
  let n := G.nodes.length
  let m := G.edges.length
  if m = 0 ∨ n ≤ 1 then fzero
  else fdivNat (2 * m) (n * (n - 1))

/-- Greedy decomposition into connected components: repeatedly take the
first pending node's reachable set (`nx.connected_components`).  Fuel is
the pending-list length, which only shrinks. -/
def componentsAux (G : Graph) : Nat → List String → List (List String)
  | 0, _ => []
  | _, [] => []
  | fuel + 1, v :: rest =>
    let comp := reachableFrom G v
    ((v :: rest).filter (fun w => w ∈ comp)) ::
      componentsAux G fuel (rest.filter (fun w => w ∉ comp))

def nx_connected_components (G : Graph) : List (List String) :=
  componentsAux G (nodeIds G).length (nodeIds G)

def componentCount (G : Graph) : Nat := (nx_connected_components G).length

/-- `nx.articulation_points`, modelled from the library's documented
semantics: the nodes whose removal (with incident edges) increases the
number of connected components. -/
def articulation_points (G : Graph) : List String :=
  (nodeIds G).filter (fun v => componentCount G < componentCount (remove_node G v))

/-- The metrics dict built by `add_topology_metrics`
(topology_builder.py:277-296).  `diameter = none` is the
`float('inf')` sentinel; the three degree statistics are present only
when the degree dict is nonempty. -/
structure Metrics where
  node_count : Nat
  edge_count : Nat
  density : PyFloat
  diameter : Option Nat
  average_clustering : PyFloat
  is_connected : Bool
  avg_degree : Option PyFloat
  max_degree : Option Nat
  min_degree : Option Nat
deriving Repr, DecidableEq

/-- `add_topology_metrics` (topology_builder.py:277-296).  The
`diameter` entry evaluates `nx.is_connected(G)`, which raises on a
model without nodes. -/
def add_topology_metrics (G : Graph) : Except NXError Metrics := do
  let conn ← nx_is_connected G
  let degrees := (nodeIds G).map (degree G)
  pure {
    node_count := G.nodes.length
    edge_count := G.edges.length
    density := nx_density G
    diameter := if conn then some (nx_diameter G) else none
    average_clustering := nx_average_clustering G
    is_connected := conn
    avg_degree := if degrees.isEmpty then none
      else some (fdivNat degrees.sum degrees.length)
    max_degree := degrees.max?
    min_degree := degrees.min? }

/-- The articulation-point portion of `analyze_topology`
(main.py:104-110), together with the metrics it derives first: the
articulation list is computed and reported only when the graph is
connected. -/
structure AnalysisReport where
  metrics : Metrics
  articulation : Option (List String)
deriving Repr, DecidableEq

def analyze_topology (G : Graph) : Except NXError AnalysisReport := do
  let m ← add_topology_metrics G
  let c ← nx_is_connected G
  if c then pure ⟨m, some (articulation_points G)⟩
  else pure ⟨m, none⟩

/-! ## Failure simulation (`main.simulate_failure`, main.py:112-141) -/

structure FailureReport where
  removedNeighbors : List String
  critical : Bool
  components : List (List String)
  diameterChange : Option (Nat × Nat)
deriving Repr, DecidableEq

inductive SimOutcome where
  | nodeNotFound
  | raised (clone : Graph) (err : NXError)
  | report (clone : Graph) (rep : FailureReport)
deriving Repr, DecidableEq

/-- `simulate_failure(G, node_to_fail)`: the first component is the
caller's model after the call (the code never touches it — it copies),
the second the outcome.  An absent node yields the not-found diagnostic
and an immediate return; otherwise the node and its incident edges are
removed from the copy, and connectivity impact is classified.  The
`nx.is_connected(G_failed)` calls raise when the clone has no nodes
left (the one-node model). -/
def simulate_failure (G : Graph) (node_to_fail : String) : Graph × SimOutcome :=
  if node_to_fail ∉ nodeIds G then (G, .nodeNotFound)
  else
    let G_failed := remove_node G node_to_fail
    let nbrs := neighbors G node_to_fail
    let res : Except NXError FailureReport := do
      let connG ← nx_is_connected G
      let crit ← (if connG then do
          let cf ← nx_is_connected G_failed
          pure (!cf)
        else pure false)
      if crit then
        pure ⟨nbrs, true, nx_connected_components G_failed, none⟩
      else do
        let cf ← nx_is_connected G_failed
        if cf then
          let newD := nx_diameter G_failed
          let cG ← nx_is_connected G
          let oldD : Option Nat := if cG then some (nx_diameter G) else none
          pure ⟨nbrs, false, [],
            if (match oldD with | some d => decide (d < newD) | none => false) then
              some (oldD.getD 0, newD)
            else none⟩
        else pure ⟨nbrs, false, [], none⟩
    match res with
    | .error e => (G, .raised G_failed e)
    | .ok rep => (G, .report G_failed rep)

/-! ## Topology generators (`modules/topology_builder.py`) -/

/-- `create_star_topology`: first id is the hub, the rest are endpoints
attached to it (topology_builder.py:27-45). -/
def create_star_topology (nodes : List String) : Graph :=
  if nodes.length < 2 then emptyGraph
  else
    match nodes with
    | [] => emptyGraph
    | center :: rest =>
      let G := add_node emptyGraph center { role := some "hub", device_type := some "switch" }
      rest.foldl (fun g node =>
        add_edge (add_node g node { role := some "endpoint", device_type := some "host" })
          center node ⟨1000, 1500, true, "ethernet"⟩) G

/-- `create_ring_topology` (topology_builder.py:47-65): routers in a
cycle, edge `i → (i+1) mod N`. -/
def create_ring_topology (nodes : List String) : Graph :=
  if nodes.length < 3 then emptyGraph
  else
    let G := nodes.foldl (fun g v => add_node g v { device_type := some "router" }) emptyGraph
    (List.range nodes.length).foldl (fun g i =>
      add_edge g (nodes.getD i "") (nodes.getD ((i + 1) % nodes.length) "")
        ⟨1000, 1500, true, "serial"⟩) G

/-- The full-mesh branch of `create_mesh_topology`
(topology_builder.py:67-97): every unordered pair connected.  (The
`partial=True` branch draws random samples and is outside the claims'
scope.) -/
def create_mesh_topology_full (nodes : List String) : Graph :=
  let G := nodes.foldl (fun g v => add_node g v { device_type := some "router" }) emptyGraph
  (pairsOf nodes).foldl (fun g p => add_edge g p.1 p.2 ⟨1000, 1500, true, "ethernet"⟩) G

/-- `create_bus_topology` (topology_builder.py:172-189): a linear
chain. -/
def create_bus_topology (nodes : List String) : Graph :=
  if nodes.length < 2 then emptyGraph
  else
    let G := nodes.foldl (fun g v => add_node g v { device_type := some "workstation" }) emptyGraph
    (List.range (nodes.length - 1)).foldl (fun g i =>
      add_edge g (nodes.getD i "") (nodes.getD (i + 1) "") ⟨100, 1500, true, "coax"⟩) G

/-! ### Tree generator (topology_builder.py:99-132)

The `while remaining_nodes and current_level_nodes` loop is embedded as
`treeLoop`; `processParents` is one pass of the inner `for parent`
loop.  `branching_factor` is a Python int, so it is `Int` here and a
non-positive value yields no children (`range` of a non-positive count
is empty). -/

def treeEdgeAttrs : EdgeAttrs := ⟨1000, 1500, true, "ethernet"⟩

/-- One outer-loop pass: each parent adopts up to
`min branching_factor |remaining|` children off the front of the
remaining pool.  Returns the graph, the leftover pool and the next
level's parent list. -/
def processParents (bf : Int) (level : Nat) :
    List String → Graph → List String → Graph × List String × List String
  | [], G, remaining => (G, remaining, [])
  | p :: ps, G, remaining =>
    let cc := (min bf (remaining.length : Int)).toNat
    let children := remaining.take cc
    let rest := remaining.drop cc
    let G' := children.foldl (fun g c =>
      add_edge
        (add_node g c { role := some "branch", device_type := some "switch", level := some level })
        p c treeEdgeAttrs) G
    let r := processParents bf level ps G' rest
    (r.1, r.2.1, children ++ r.2.2)

theorem processParents_remaining_le (bf : Int) (level : Nat) (parents : List String)
    (G : Graph) (remaining : List String) :
    (processParents bf level parents G remaining).2.1.length ≤ remaining.length := by
  induction parents generalizing G remaining with
  | nil => simp [processParents]
  | cons p ps ih =>
    simp only [processParents]
    exact le_trans (ih _ _) (by simp [List.length_drop])

theorem processParents_nonpos (bf : Int) (level : Nat) (parents : List String)
    (G : Graph) (remaining : List String) (hbf : bf ≤ 0) :
    processParents bf level parents G remaining = (G, remaining, []) := by
  induction parents generalizing G remaining with
  | nil => simp [processParents]
  | cons p ps ih =>
    have hcc : (min bf (remaining.length : Int)).toNat = 0 := by
      have : min bf (remaining.length : Int) ≤ 0 := le_trans (min_le_left _ _) hbf
      omega
    simp [processParents, hcc, ih]

theorem processParents_remaining_lt (bf : Int) (level : Nat) (parents : List String)
    (G : Graph) (remaining : List String) (hbf : 1 ≤ bf)
    (hp : parents ≠ []) (hr : remaining ≠ []) :
    (processParents bf level parents G remaining).2.1.length < remaining.length := by
  match parents with
  | [] => exact absurd rfl hp
  | p :: ps =>
    simp only [processParents]
    have hlen : 1 ≤ remaining.length := by
      cases remaining with
      | nil => exact absurd rfl hr
      | cons _ _ => simp
    have hcc : 1 ≤ (min bf (remaining.length : Int)).toNat := by
      have h1 : (1 : Int) ≤ min bf (remaining.length : Int) := by
        apply le_min hbf
        exact_mod_cast hlen
      omega
    calc (processParents bf level ps _ (remaining.drop (min bf (remaining.length : Int)).toNat)).2.1.length
        ≤ (remaining.drop (min bf (remaining.length : Int)).toNat).length :=
          processParents_remaining_le _ _ _ _ _
      _ < remaining.length := by
          rw [List.length_drop]
          omega

/-- The `while remaining_nodes and current_level_nodes` loop. -/
def treeLoop (bf : Int) (G : Graph) (remaining current : List String) (level : Nat) : Graph :=
  if remaining = [] ∨ current = [] then G
  else
    let r := processParents bf level current G remaining
    treeLoop bf r.1 r.2.1 r.2.2 (level + 1)
termination_by remaining.length + (if current = [] then 0 else 1)
decreasing_by
  rename_i h
  rw [not_or] at h
  rcases le_or_lt bf 0 with hbf | hbf
  · rw [processParents_nonpos bf level current G remaining hbf]
    simp [h.2]
  · have := processParents_remaining_lt bf level current G remaining hbf h.2 h.1
    have hif : (if (processParents bf level current G remaining).2.2 = [] then 0 else 1) ≤ 1 := by
      split <;> omega
    simp only [if_neg h.2]
    omega

/-- `create_tree_topology` (topology_builder.py:99-132). -/
def create_tree_topology (nodes : List String) (branching_factor : Int := 2) : Graph :=
  match nodes with
  | [] => emptyGraph
  | root :: rest =>
    let G := add_node emptyGraph root
      { role := some "root", device_type := some "switch", level := some 0 }
    treeLoop branching_factor G rest [root] 1

/-! ### Spine-leaf generator (topology_builder.py:134-170) -/

def spineName (i : Nat) : String := "spine" ++ Nat.repr (i + 1)

def leafName (i : Nat) : String := "leaf" ++ Nat.repr (i + 1)

def hostName (leaf : String) (i : Nat) : String := leaf ++ "-host" ++ Nat.repr (i + 1)

def spineAttrs : NodeAttrs := { role := some "spine", device_type := some "switch", tier := some "spine" }

def leafAttrs : NodeAttrs := { role := some "leaf", device_type := some "switch", tier := some "leaf" }

def hostAttrs : NodeAttrs := { role := some "host", device_type := some "server", tier := some "access" }

def coreLinkAttrs : EdgeAttrs := ⟨10000, 9000, true, "ethernet"⟩

def hostLinkAttrs : EdgeAttrs := ⟨1000, 1500, true, "ethernet"⟩

/-- `create_spine_leaf_topology`: complete bipartite spine-leaf core at
10G/9000, plus two hosts per leaf at 1G/1500. -/
def create_spine_leaf_topology (spine_count : Nat := 2) (leaf_count : Nat := 4) : Graph :=
  let spine_nodes := (List.range spine_count).map spineName
  let leaf_nodes := (List.range leaf_count).map leafName
  let G0 := spine_nodes.foldl (fun g s => add_node g s spineAttrs) emptyGraph
  let G1 := leaf_nodes.foldl (fun g l => add_node g l leafAttrs) G0
  let G2 := spine_nodes.foldl (fun g s =>
    leaf_nodes.foldl (fun g2 l => add_edge g2 s l coreLinkAttrs) g) G1
  leaf_nodes.foldl (fun g l =>
    (List.range 2).foldl (fun g2 i =>
      add_edge (add_node g2 (hostName l i) hostAttrs) l (hostName l i) hostLinkAttrs) g) G2

/-! ### Hybrid generator (topology_builder.py:191-239) -/

def lookupGroup (groups : List (String × List String)) (k : String) : Option (List String) :=
  (groups.find? (fun p => p.1 = k)).map (·.2)

def buildGroupTopology (group_type : String) (nodes : List String) : Graph :=
  if group_type = "core" then create_mesh_topology_full nodes
  else if group_type = "distribution" then create_ring_topology nodes
  else if group_type = "access" then create_star_topology nodes
  else create_bus_topology nodes

/-- `create_hybrid_topology`: per-group subtopologies unioned, then the
fixed interconnection policy (first 2 core ids to first 2 distribution
ids on fiber; every distribution id to the first access id). -/
def create_hybrid_topology (node_groups : List (String × List String)) : Graph :=
  let G := node_groups.foldl (fun g p => nx_union g (buildGroupTopology p.1 p.2)) emptyGraph
  let G :=
    match lookupGroup node_groups "core", lookupGroup node_groups "distribution" with
    | some core_nodes, some dist_nodes =>
      (core_nodes.take 2).foldl (fun g c =>
        (dist_nodes.take 2).foldl (fun g2 d => add_edge g2 c d ⟨10000, 1500, true, "fiber"⟩) g) G
    | _, _ => G
  match lookupGroup node_groups "distribution", lookupGroup node_groups "access" with
  | some dist_nodes, some access_nodes =>
    let access_switches := access_nodes.take 1
    dist_nodes.foldl (fun g d =>
      access_switches.foldl (fun g2 sw => add_edge g2 d sw ⟨1000, 1500, true, "ethernet"⟩) g) G
  | _, _ => G

/-! ## Custom topology connection entry (`main.create_custom_topology`,
main.py:234-263): the per-connection step of the input loop. -/

inductive ConnOutcome where
  | invalidFormat
  | unknownNodes
  | alreadyExists
  | added
deriving Repr, DecidableEq

/-- One iteration of the connection-entry loop: reject a line without
`-`, reject endpoints outside the declared node list, skip an existing
pair, otherwise add the edge with the given bandwidth. -/
def connEndpoint1 (connection : String) : String :=
  ⟨stripChars (splitFirst '-' connection.data).1⟩

def connEndpoint2 (connection : String) : String :=
  ⟨stripChars (splitFirst '-' connection.data).2⟩

def add_connection (G : Graph) (nodes : List String) (connection : String)
    (bandwidth : Nat) : Graph × ConnOutcome :=
  if '-' ∉ connection.data then (G, .invalidFormat)
  else if connEndpoint1 connection ∉ nodes ∨ connEndpoint2 connection ∉ nodes then
    (G, .unknownNodes)
  else if adjB G (connEndpoint1 connection) (connEndpoint2 connection) then
    (G, .alreadyExists)
  else
    (add_edge G (connEndpoint1 connection) (connEndpoint2 connection)
      ⟨bandwidth, 1500, true, "ethernet"⟩, .added)

/-! ## Link-list parsing (`check_links.py`) -/

/-- One line of `read_links` (check_links.py:14-25): strip, drop blank
and `#` lines, drop lines without `-`, split at the first `-` and strip
both endpoint strings. -/
def parse_link_line (line : String) : Option (String × String) :=
  let l := stripChars line.data
  if l = [] then none
  else if l.head? = some '#' then none
  else if '-' ∉ l then none
  else
    let p := splitFirst '-' l
    some (⟨stripChars p.1⟩, ⟨stripChars p.2⟩)

/-- `read_links` (check_links.py:4-26).  `none` models a missing links
file: the function prints a diagnostic and returns the empty list. -/
def read_links (fileLines : Option (List String)) : List (String × String) :=
  match fileLines with
  | none => []
  | some ls => ls.filterMap parse_link_line

/-- The diagnostics accumulated by `check_links_vs_configs`
(check_links.py:29-52): invalid endpoints (no `:`), missing devices (a
set, in first-encounter order) and missing interfaces. -/
structure CheckResult where
  invalid_endpoints : List String
  missing_devices : List String
  missing_interfaces : List String
deriving Repr, DecidableEq

def insertSet (l : List String) (x : String) : List String :=
  if x ∈ l then l else l ++ [x]

/-- Processing of a single endpoint inside the
`for ep in [ep1, ep2]` loop of `check_links_vs_configs`. -/
def check_endpoint (configs : List (String × List String)) (st : CheckResult)
    (ep : String) : CheckResult :=
  if ':' ∉ ep.data then { st with invalid_endpoints := st.invalid_endpoints ++ [ep] }
  else
    let p := splitFirst ':' ep.data
    let dev : String := ⟨stripChars p.1⟩
    let iface := pyLower ⟨stripChars p.2⟩
    match (configs.find? (fun q => q.1 = dev)).map (·.2) with
    | none => { st with missing_devices := insertSet st.missing_devices dev }
    | some ifaces =>
      if iface ∈ ifaces.map pyLower then st
      else { st with missing_interfaces := st.missing_interfaces ++ [dev ++ ":" ++ iface] }

/-- `check_links_vs_configs` (check_links.py:29-52). -/
def check_links_vs_configs (configs : List (String × List String))
    (links : List (String × String)) : CheckResult :=
  links.foldl (fun st q => check_endpoint configs (check_endpoint configs st q.1) q.2) ⟨[], [], []⟩

/-! ## Operation lemmas -/

theorem adjB_only_edges (G H : Graph) (h : G.edges = H.edges) (a b : String) :
    adjB G a b = adjB H a b := by unfold adjB; rw [h]

theorem edges_remove_node (G : Graph) (v : String) :
    (remove_node G v).edges = G.edges.filter (fun e => e.1 ≠ v ∧ e.2.1 ≠ v) := rfl

theorem not_mem_nodeIds_remove_node (G : Graph) (v : String) :
    v ∉ nodeIds (remove_node G v) := by
  rw [nodeIds_remove_node]
  simp

/-- Dropping elements that a search predicate cannot match leaves
`find?` unchanged. -/
theorem find?_filter_of_imp {α : Type} (l : List α) (p q : α → Bool)
    (h : ∀ x, q x = true → p x = true) :
    List.find? q (l.filter p) = List.find? q l := by
  induction l with
  | nil => rfl
  | cons x xs ih =>
    by_cases hp : p x = true
    · rw [List.filter_cons_of_pos hp]
      by_cases hq : q x = true
      · rw [List.find?_cons_of_pos _ hq, List.find?_cons_of_pos _ hq]
      · rw [List.find?_cons_of_neg _ hq, List.find?_cons_of_neg _ hq, ih]
    · rw [List.filter_cons_of_neg hp]
      have hq : ¬ q x = true := fun hx => hp (h x hx)
      rw [List.find?_cons_of_neg _ hq, ih]

theorem lookupNode_remove_node (G : Graph) (v w : String) (hw : w ≠ v) :
    lookupNode (remove_node G v) w = lookupNode G w := by
  show (((G.nodes.filter (fun p => p.1 ≠ v)).find? (fun p => p.1 = w)).map (·.2)) = _
  rw [find?_filter_of_imp]
  · rfl
  · intro x hx
    simp only [decide_eq_true_iff] at hx ⊢
    exact hx ▸ hw

theorem lookupEdge_remove_node (G : Graph) (v a b : String) (ha : a ≠ v) (hb : b ≠ v) :
    lookupEdge (remove_node G v) a b = lookupEdge G a b := by
  show (((G.edges.filter (fun e => e.1 ≠ v ∧ e.2.1 ≠ v)).find?
      (fun e => (e.1 = a && e.2.1 = b) || (e.1 = b && e.2.1 = a))).map (·.2.2)) = _
  rw [find?_filter_of_imp]
  · rfl
  · intro e he
    simp only [Bool.or_eq_true, Bool.and_eq_true, decide_eq_true_iff] at he
    simp only [decide_eq_true_iff, ne_eq]
    rcases he with ⟨h1, h2⟩ | ⟨h1, h2⟩
    · exact ⟨h1 ▸ ha, h2 ▸ hb⟩
    · exact ⟨h1 ▸ hb, h2 ▸ ha⟩

/-- Extracts the clone a simulation outcome operated on, if any. -/
def cloneOf : SimOutcome → Option Graph
  | .nodeNotFound => none
  | .raised C _ => some C
  | .report C _ => some C

/-! ### `add_edge` structure lemmas -/

theorem ensureNode_mem (G : Graph) (v : String) (h : v ∈ nodeIds G) :
    ensureNode G v = G := by
  unfold ensureNode
  rw [if_pos h]

theorem add_edge_eq_raw (G : Graph) (a b : String) (attrs : EdgeAttrs)
    (ha : a ∈ nodeIds G) (hb : b ∈ nodeIds G) :
    add_edge G a b attrs = addEdgeRaw G a b attrs := by
  unfold add_edge
  rw [ensureNode_mem G a ha, ensureNode_mem G b hb]

theorem addEdgeRaw_not_adj (G : Graph) (a b : String) (attrs : EdgeAttrs)
    (h : adjB G a b = false) :
    addEdgeRaw G a b attrs = { G with edges := G.edges ++ [(a, b, attrs)] } := by
  unfold addEdgeRaw
  rw [h]
  simp

theorem nodes_addEdgeRaw (G : Graph) (a b : String) (attrs : EdgeAttrs) :
    (addEdgeRaw G a b attrs).nodes = G.nodes := by
  unfold addEdgeRaw
  by_cases h : adjB G a b <;> simp [h]

theorem nodeIds_ensureNode (G : Graph) (v : String) :
    nodeIds (ensureNode G v) = if v ∈ nodeIds G then nodeIds G else nodeIds G ++ [v] := by
  unfold ensureNode
  by_cases h : v ∈ nodeIds G
  · rw [if_pos h, if_pos h]
  · rw [if_neg h, if_neg h]
    simp [nodeIds]

theorem edges_ensureNode (G : Graph) (v : String) :
    (ensureNode G v).edges = G.edges := by
  unfold ensureNode
  by_cases h : v ∈ nodeIds G <;> simp [h]

theorem nodeIds_add_edge_mem (G : Graph) (a b : String) (attrs : EdgeAttrs)
    (ha : a ∈ nodeIds G) (hb : b ∈ nodeIds G) :
    nodeIds (add_edge G a b attrs) = nodeIds G := by
  rw [add_edge_eq_raw G a b attrs ha hb]
  show (addEdgeRaw G a b attrs).nodes.map _ = _
  rw [nodes_addEdgeRaw]
  rfl

theorem edges_add_edge_new (G : Graph) (a b : String) (attrs : EdgeAttrs)
    (ha : a ∈ nodeIds G) (hb : b ∈ nodeIds G) (hadj : adjB G a b = false) :
    (add_edge G a b attrs).edges = G.edges ++ [(a, b, attrs)] := by
  rw [add_edge_eq_raw G a b attrs ha hb, addEdgeRaw_not_adj G a b attrs hadj]

theorem mem_nodeIds_add_edge (G : Graph) (a b w : String) (attrs : EdgeAttrs) :
    w ∈ nodeIds (add_edge G a b attrs) ↔ w ∈ nodeIds G ∨ w = a ∨ w = b := by
  unfold add_edge
  show w ∈ (addEdgeRaw _ a b attrs).nodes.map _ ↔ _
  rw [nodes_addEdgeRaw]
  show w ∈ nodeIds (ensureNode (ensureNode G a) b) ↔ _
  rw [nodeIds_ensureNode, nodeIds_ensureNode]
  by_cases ha : a ∈ nodeIds G <;> by_cases hb : b ∈ nodeIds (ensureNode G a) <;>
    rw [nodeIds_ensureNode] at * <;> simp [ha] at hb ⊢ <;> aesop

/-! ### Invariant preservation -/

theorem edgesWf_empty : EdgesWf emptyGraph := by
  intro e he
  simp [emptyGraph] at he

theorem nodesNodup_empty : NodesNodup emptyGraph := by
  simp [NodesNodup, nodeIds, emptyGraph]

theorem edgesWf_add_node (G : Graph) (v : String) (a : NodeAttrs) (h : EdgesWf G) :
    EdgesWf (add_node G v a) := by
  intro e he
  rw [edges_add_node] at he
  have := h e he
  rw [mem_nodeIds_add_node, mem_nodeIds_add_node]
  exact ⟨Or.inl this.1, Or.inl this.2⟩

theorem nodesNodup_add_node (G : Graph) (v : String) (a : NodeAttrs) (h : NodesNodup G) :
    NodesNodup (add_node G v a) := by
  unfold NodesNodup at *
  by_cases hv : v ∈ nodeIds G
  · rw [nodeIds_add_node_mem G v a hv]; exact h
  · rw [nodeIds_add_node_new G v a hv]
    simpa [List.nodup_append] using ⟨h, hv⟩

theorem edgesWf_add_edge (G : Graph) (a b : String) (attrs : EdgeAttrs) (h : EdgesWf G) :
    EdgesWf (add_edge G a b attrs) := by
  have hmemG : ∀ w, w ∈ nodeIds G → w ∈ nodeIds (add_edge G a b attrs) := by
    intro w hw
    rw [mem_nodeIds_add_edge]
    exact Or.inl hw
  have hmema : a ∈ nodeIds (add_edge G a b attrs) := by
    rw [mem_nodeIds_add_edge]; exact Or.inr (Or.inl rfl)
  have hmemb : b ∈ nodeIds (add_edge G a b attrs) := by
    rw [mem_nodeIds_add_edge]; exact Or.inr (Or.inr rfl)
  intro e he
  have hE : (add_edge G a b attrs).edges = (addEdgeRaw (ensureNode (ensureNode G a) b) a b attrs).edges := rfl
  rw [hE] at he
  unfold addEdgeRaw at he
  by_cases hadj : adjB (ensureNode (ensureNode G a) b) a b = true
  · rw [if_pos hadj] at he
    simp only [List.mem_map] at he
    obtain ⟨e0, he0, heq⟩ := he
    rw [edges_ensureNode, edges_ensureNode] at he0
    have h0 := h e0 he0
    by_cases hm : ((e0.1 = a && e0.2.1 = b) || (e0.1 = b && e0.2.1 = a)) = true
    · rw [if_pos hm] at heq
      rw [← heq]
      exact ⟨hmemG _ h0.1, hmemG _ h0.2⟩
    · rw [if_neg hm] at heq
      rw [← heq]
      exact ⟨hmemG _ h0.1, hmemG _ h0.2⟩
  · rw [if_neg hadj] at he
    simp only [List.mem_append, List.mem_singleton] at he
    rw [edges_ensureNode, edges_ensureNode] at he
    rcases he with he | rfl
    · have h0 := h e he
      exact ⟨hmemG _ h0.1, hmemG _ h0.2⟩
    · exact ⟨hmema, hmemb⟩

theorem nodesNodup_add_edge (G : Graph) (a b : String) (attrs : EdgeAttrs) (h : NodesNodup G) :
    NodesNodup (add_edge G a b attrs) := by
  unfold NodesNodup at *
  show ((addEdgeRaw (ensureNode (ensureNode G a) b) a b attrs).nodes.map _).Nodup
  rw [nodes_addEdgeRaw]
  show (nodeIds (ensureNode (ensureNode G a) b)).Nodup
  rw [nodeIds_ensureNode]
  by_cases hb : b ∈ nodeIds (ensureNode G a) <;> rw [nodeIds_ensureNode] at * <;>
    by_cases ha : a ∈ nodeIds G <;> simp [ha] at hb ⊢ <;>
    simp [List.nodup_append, h, ha, hb] <;> tauto

theorem edgesWf_remove_node (G : Graph) (v : String) (h : EdgesWf G) :
    EdgesWf (remove_node G v) := by
  intro e he
  rw [edges_remove_node, List.mem_filter] at he
  obtain ⟨hmem, hcond⟩ := he
  simp only [decide_eq_true_iff, ne_eq] at hcond
  have h0 := h e hmem
  rw [nodeIds_remove_node, List.mem_filter, List.mem_filter]
  constructor
  · exact ⟨h0.1, by simpa using hcond.1⟩
  · exact ⟨h0.2, by simpa using hcond.2⟩

theorem nodesNodup_remove_node (G : Graph) (v : String) (h : NodesNodup G) :
    NodesNodup (remove_node G v) := by
  unfold NodesNodup at *
  rw [nodeIds_remove_node]
  exact h.filter _

theorem sim_match_fst (G Gf : Graph) (res : Except NXError FailureReport) :
    (match res with
      | .error e => (G, SimOutcome.raised Gf e)
      | .ok rep => (G, SimOutcome.report Gf rep)).1 = G := by
  cases res <;> rfl

theorem sim_match_clone (G Gf : Graph) (res : Except NXError FailureReport) :
    cloneOf (match res with
      | .error e => (G, SimOutcome.raised Gf e)
      | .ok rep => (G, SimOutcome.report Gf rep)).2 = some Gf := by
  cases res <;> rfl

theorem simulate_failure_fst (G : Graph) (nodeId : String) :
    (simulate_failure G nodeId).1 = G := by
  unfold simulate_failure
  by_cases h : nodeId ∉ nodeIds G
  · rw [if_pos h]
  · rw [if_neg h]
    exact sim_match_fst G (remove_node G nodeId) _

theorem simulate_failure_clone (G : Graph) (nodeId : String) (h : nodeId ∈ nodeIds G) :
    cloneOf (simulate_failure G nodeId).2 = some (remove_node G nodeId) := by
  unfold simulate_failure
  rw [if_neg (not_not_intro h)]
  exact sim_match_clone G (remove_node G nodeId) _

/-- C1: node-failure simulation leaves the caller's model untouched: the
model the caller holds after the call is the input itself; an absent id
produces only the not-found outcome; a present id operates on a clone
from which exactly the failed node and its incident edges are removed,
every other node and edge keeping its attributes. -/
theorem C1_simulate_failure_frame (G : Graph) (nodeId : String) :
    (simulate_failure G nodeId).1 = G ∧
    ((simulate_failure G nodeId).2 = SimOutcome.nodeNotFound ↔ nodeId ∉ nodeIds G) ∧
    (nodeId ∈ nodeIds G →
      cloneOf (simulate_failure G nodeId).2 = some (remove_node G nodeId) ∧
      nodeId ∉ nodeIds (remove_node G nodeId) ∧
      nodeIds (remove_node G nodeId) = (nodeIds G).filter (fun w => w ≠ nodeId) ∧
      (∀ w, w ≠ nodeId → lookupNode (remove_node G nodeId) w = lookupNode G w) ∧
      (remove_node G nodeId).edges =
        G.edges.filter (fun e => e.1 ≠ nodeId ∧ e.2.1 ≠ nodeId) ∧
      (∀ a b, a ≠ nodeId → b ≠ nodeId →
        lookupEdge (remove_node G nodeId) a b = lookupEdge G a b)) := by
  refine ⟨simulate_failure_fst G nodeId, ?_, ?_⟩
  · constructor
    · intro heq hmem
      have := simulate_failure_clone G nodeId hmem
      rw [heq] at this
      exact Option.noConfusion this
    · intro habs
      unfold simulate_failure
      rw [if_pos habs]
  · intro hmem
    exact ⟨simulate_failure_clone G nodeId hmem,
      not_mem_nodeIds_remove_node G nodeId,
      nodeIds_remove_node G nodeId,
      fun w hw => lookupNode_remove_node G nodeId w hw,
      edges_remove_node G nodeId,
      fun a b ha hb => lookupEdge_remove_node G nodeId a b ha hb⟩

/-- Witness for C1 at a concrete bus model: an absent id fails with the
not-found outcome, a present id yields the clone with the node
removed. -/
theorem C1_simulate_failure_frame_witness :
    (simulate_failure (create_bus_topology ["a", "b"]) "zz").2 = SimOutcome.nodeNotFound ∧
    cloneOf (simulate_failure (create_bus_topology ["a", "b"]) "a").2 =
      some (remove_node (create_bus_topology ["a", "b"]) "a") := by
  have h1 := C1_simulate_failure_frame (create_bus_topology ["a", "b"]) "zz"
  have h2 := C1_simulate_failure_frame (create_bus_topology ["a", "b"]) "a"
  exact ⟨h1.2.1.mpr (by decide), (h2.2.2 (by decide)).1⟩

/-! ## Fold-max lemmas for the diameter -/

theorem foldl_max_shift {α : Type} (f : α → Nat) (l : List α) (init : Nat) :
    l.foldl (fun m x => max m (f x)) init = max init (l.foldl (fun m x => max m (f x)) 0) := by
  induction l generalizing init with
  | nil => simp
  | cons x xs ih =>
    simp only [List.foldl_cons]
    rw [ih (max init (f x)), ih (max 0 (f x))]
    omega

theorem le_foldl_max_of_mem {α : Type} (f : α → Nat) (l : List α) :
    ∀ (init : Nat) (x : α), x ∈ l → f x ≤ l.foldl (fun m y => max m (f y)) init := by
  induction l with
  | nil => intro _ _ hx; cases hx
  | cons y ys ih =>
    intro init x hx
    simp only [List.foldl_cons]
    rcases List.mem_cons.mp hx with rfl | hmem
    · calc f x ≤ max init (f x) := le_max_right _ _
        _ ≤ _ := by
          rw [foldl_max_shift]
          exact le_max_left _ _
    · exact ih _ x hmem

theorem foldl_max_achieved {α : Type} (f : α → Nat) (l : List α) (init : Nat) :
    l.foldl (fun m y => max m (f y)) init = init ∨
      ∃ x ∈ l, l.foldl (fun m y => max m (f y)) init = f x := by
  induction l generalizing init with
  | nil => exact Or.inl rfl
  | cons y ys ih =>
    simp only [List.foldl_cons]
    rcases ih (max init (f y)) with h | ⟨x, hx, h⟩
    · rcases Nat.le_total init (f y) with hle | hle
      · right
        exact ⟨y, List.mem_cons_self _ _, by rw [h]; omega⟩
      · left
        rw [h]; omega
    · exact Or.inr ⟨x, List.mem_cons_of_mem _ hx, h⟩

/-- The diameter fold as an outer max-fold of inner max-folds. -/
theorem nx_diameter_eq_outer (G : Graph) :
    nx_diameter G = (nodeIds G).foldl (fun m u =>
      max m ((nodeIds G).foldl (fun m2 v => max m2 ((distB G u v).getD 0)) 0)) 0 := by
  unfold nx_diameter
  apply List.foldl_ext
  intro m u _
  exact foldl_max_shift (fun x => (distB G u x).getD 0) (nodeIds G) m

/-- The diameter fold dominates every pairwise distance. -/
theorem dist_le_nx_diameter (G : Graph) (u v : String)
    (hu : u ∈ nodeIds G) (hv : v ∈ nodeIds G) :
    (distB G u v).getD 0 ≤ nx_diameter G := by
  rw [nx_diameter_eq_outer]
  calc (distB G u v).getD 0
      ≤ (nodeIds G).foldl (fun m2 w => max m2 ((distB G u w).getD 0)) 0 :=
        le_foldl_max_of_mem (fun w => (distB G u w).getD 0) (nodeIds G) 0 v hv
    _ ≤ _ :=
        le_foldl_max_of_mem
          (fun w => (nodeIds G).foldl (fun m2 x => max m2 ((distB G w x).getD 0)) 0)
          (nodeIds G) 0 u hu

/-- A node is at distance 0 from itself. -/
theorem distB_self (G : Graph) (u : String) : distB G u u = some 0 := by
  unfold distB
  rw [List.range_succ_eq_map, List.find?_cons_of_pos]
  simp [ball]

/-- The diameter fold is attained at some node pair. -/
theorem nx_diameter_achieved (G : Graph) (hne : G.nodes ≠ []) :
    ∃ u ∈ nodeIds G, ∃ v ∈ nodeIds G, nx_diameter G = (distB G u v).getD 0 := by
  have hneIds : nodeIds G ≠ [] := by
    intro h
    exact hne (List.map_eq_nil_iff.mp h)
  obtain ⟨w, hw⟩ := List.exists_mem_of_ne_nil _ hneIds
  have houter := nx_diameter_eq_outer G
  rcases foldl_max_achieved
      (fun u => (nodeIds G).foldl (fun m2 v => max m2 ((distB G u v).getD 0)) 0)
      (nodeIds G) 0 with h | ⟨u, hu, h⟩
  · -- the whole fold is 0; the pair (w, w) attains 0
    refine ⟨w, hw, w, hw, ?_⟩
    rw [houter, h, distB_self G w]
    rfl
  · rcases foldl_max_achieved (fun v => (distB G u v).getD 0) (nodeIds G) 0 with h2 | ⟨v, hv, h2⟩
    · -- the inner fold is 0; the pair (u, u) attains 0
      refine ⟨u, hu, u, hu, ?_⟩
      rw [houter, h, h2, distB_self G u]
      rfl
    · exact ⟨u, hu, v, hv, by rw [houter, h, h2]⟩

/-- On a model with at least one node the metrics computation reduces to
a plain record. -/
theorem add_topology_metrics_ok (G : Graph) (h : ¬ G.nodes.length = 0) :
    add_topology_metrics G = Except.ok
      { node_count := G.nodes.length
        edge_count := G.edges.length
        density := nx_density G
        diameter := if isConnectedB G then some (nx_diameter G) else none
        average_clustering := nx_average_clustering G
        is_connected := isConnectedB G
        avg_degree := if ((nodeIds G).map (degree G)).isEmpty then none
          else some (fdivNat ((nodeIds G).map (degree G)).sum
            ((nodeIds G).map (degree G)).length)
        max_degree := ((nodeIds G).map (degree G)).max?
        min_degree := ((nodeIds G).map (degree G)).min? } := by
  unfold add_topology_metrics nx_is_connected
  rw [if_neg h]
  rfl

/-- C2 (amended to models with at least one node): the metrics
computation returns a snapshot without raising; on a connected model the
diameter entry is the largest shortest-path length over all node pairs,
and on a disconnected model it is the infinite sentinel. -/
theorem C2_metrics_diameter (G : Graph) (h : G.nodes ≠ []) :
    ∃ m, add_topology_metrics G = Except.ok m ∧
      m.is_connected = isConnectedB G ∧
      (isConnectedB G = true →
        m.diameter = some (nx_diameter G) ∧
        (∀ u ∈ nodeIds G, ∀ v ∈ nodeIds G, (distB G u v).getD 0 ≤ nx_diameter G) ∧
        (∃ u ∈ nodeIds G, ∃ v ∈ nodeIds G, nx_diameter G = (distB G u v).getD 0)) ∧
      (isConnectedB G = false → m.diameter = none) := by
  have hlen : ¬ G.nodes.length = 0 := by
    intro h0
    exact h (List.length_eq_zero.mp h0)
  refine ⟨_, add_topology_metrics_ok G hlen, rfl, ?_, ?_⟩
  · intro hconn
    refine ⟨by simp [hconn], ?_, nx_diameter_achieved G h⟩
    intro u hu v hv
    exact dist_le_nx_diameter G u v hu hv
  · intro hconn
    simp [hconn]

/-- C2 counterexample: on the empty model the metrics computation
raises (`nx.is_connected` rejects the null graph), so the claim's
"including an empty one" fails. -/
theorem C2_empty_model_raises :
    add_topology_metrics emptyGraph = Except.error NXError.pointlessConcept := rfl

/-- Witness for C2 at a two-node bus model. -/
theorem C2_metrics_diameter_witness :
    (create_bus_topology ["a", "b"]).nodes ≠ [] ∧
    ∃ m, add_topology_metrics (create_bus_topology ["a", "b"]) = Except.ok m := by
  have h := C2_metrics_diameter (create_bus_topology ["a", "b"]) (by decide)
  exact ⟨by decide, h.elim (fun m hm => ⟨m, hm.1⟩)⟩

/-! ## Link-list parsing claims -/

/-- C9: link-list parsing is never fatal: blank and `#` lines yield no
entry; a line without `-` yields no entry; parsing is line-local, so it
continues over the remaining lines; the sample line parses to its
endpoint pair; an endpoint without `:` is recorded as invalid by the
existence check and the remaining endpoints are still processed; a
missing link file yields the empty link list. -/
theorem C9_link_parsing_never_fatal :
    (∀ line : String, stripChars line.data = [] → parse_link_line line = none) ∧
    (∀ line : String, (stripChars line.data).head? = some '#' →
      parse_link_line line = none) ∧
    (∀ line : String, '-' ∉ stripChars line.data → parse_link_line line = none) ∧
    (∀ lines1 lines2 : List String,
      read_links (some (lines1 ++ lines2)) =
        read_links (some lines1) ++ read_links (some lines2)) ∧
    parse_link_line "R1:Gig0/0 - R2:Gig0/1" = some ("R1:Gig0/0", "R2:Gig0/1") ∧
    (∀ configs st (ep : String), ':' ∉ ep.data →
      check_endpoint configs st ep =
        { st with invalid_endpoints := st.invalid_endpoints ++ [ep] }) ∧
    (∀ configs (links1 links2 : List (String × String)),
      check_links_vs_configs configs (links1 ++ links2) =
        links2.foldl (fun st q => check_endpoint configs (check_endpoint configs st q.1) q.2)
          (check_links_vs_configs configs links1)) ∧
    read_links none = [] := by
  refine ⟨?_, ?_, ?_, ?_, ?_, ?_, ?_, rfl⟩
  · intro line h
    simp [parse_link_line, h]
  · intro line h
    by_cases h0 : stripChars line.data = []
    · simp [parse_link_line, h0]
    · simp [parse_link_line, h0, h]
  · intro line h
    by_cases h0 : stripChars line.data = []
    · simp [parse_link_line, h0]
    · by_cases h1 : (stripChars line.data).head? = some '#'
      · simp [parse_link_line, h0, h1]
      · simp [parse_link_line, h0, h1, h]
  · intro lines1 lines2
    simp [read_links, List.filterMap_append]
  · decide
  · intro configs st ep h
    simp [check_endpoint, h]
  · intro configs links1 links2
    simp [check_links_vs_configs, List.foldl_append]

/-- Witness for C9: the hypotheses discharged at a blank line, a comment
line, a dash-less line and a colon-less endpoint. -/
theorem C9_link_parsing_never_fatal_witness :
    parse_link_line "" = none ∧
    parse_link_line "# links" = none ∧
    parse_link_line "R1 R2" = none ∧
    check_endpoint [] ⟨[], [], []⟩ "R1" = ⟨["R1"], [], []⟩ := by
  obtain ⟨h1, h2, h3, _, _, h6, _, _⟩ := C9_link_parsing_never_fatal
  refine ⟨h1 "" (by decide), h2 "# links" (by decide), h3 "R1 R2" (by decide), ?_⟩
  have := h6 [] ⟨[], [], []⟩ "R1" (by decide)
  simpa using this

/-- C10: an accepted line is split at the first `-` only: the left
endpoint is the stripped prefix before the first `-`, the right endpoint
the stripped remainder (which may itself contain further `-`
characters). -/
theorem C10_split_at_first_dash (line : String) (l r : List Char)
    (hsplit : stripChars line.data = l ++ '-' :: r) (hl : '-' ∉ l)
    (hhash : (stripChars line.data).head? ≠ some '#') :
    parse_link_line line = some (⟨stripChars l⟩, ⟨stripChars r⟩) := by
  have hne : stripChars line.data ≠ [] := by
    rw [hsplit]
    exact List.append_ne_nil_of_right_ne_nil _ (by simp)
  have hdash : '-' ∈ stripChars line.data := by
    rw [hsplit]
    simp
  unfold parse_link_line
  rw [if_neg hne, if_neg hhash, if_neg (not_not_intro hdash), hsplit,
    splitFirst_append l r '-' hl]

/-- Witness for C10: a line whose left endpoint contains a `-` inside
the interface name still yields one pair, split at the first `-`. -/
theorem C10_split_at_first_dash_witness :
    parse_link_line "R1:Gig0/0-1 - R2:e0" = some ("R1:Gig0/0", "1 - R2:e0") := by
  have h := C10_split_at_first_dash "R1:Gig0/0-1 - R2:e0" ("R1:Gig0/0".data)
    ("1 - R2:e0".data) (by decide) (by decide) (by decide)
  exact h.trans (by decide)

/-! ## C3: edge addition with absent endpoints -/

/-- C3 (amended): the custom-topology connection step — the only edge
addition in the repository that checks its endpoints — rejects a
connection with an endpoint outside the declared node list, reporting
unknown nodes and leaving the graph exactly as it was (no node and no
edge added). -/
theorem C3_add_connection_unknown_aborts (G : Graph) (nodes : List String)
    (connection : String) (bw : Nat) (hdash : '-' ∈ connection.data)
    (habs : connEndpoint1 connection ∉ nodes ∨ connEndpoint2 connection ∉ nodes) :
    add_connection G nodes connection bw = (G, ConnOutcome.unknownNodes) := by
  unfold add_connection
  rw [if_neg (not_not_intro hdash), if_pos habs]

/-- Witness for C3's amended statement at a concrete connection line
with an undeclared right endpoint. -/
theorem C3_add_connection_unknown_aborts_witness :
    add_connection emptyGraph ["a", "b"] "a-zz" 1000 =
      (emptyGraph, ConnOutcome.unknownNodes) :=
  C3_add_connection_unknown_aborts emptyGraph ["a", "b"] "a-zz" 1000
    (by decide) (by decide)

/-- C3 counterexample: the raw add-edge primitive does not fail on an
absent endpoint.  In the hybrid builder with a two-node distribution
group, the ring generator returns the empty model, so the union stage
does not contain "d1"; the interconnect `add_edge` then silently
materializes "d1" and the edge instead of aborting. -/
theorem C3_add_edge_absent_endpoint_cex :
    ("d1" ∉ nodeIds (nx_union (nx_union emptyGraph (create_mesh_topology_full ["c1", "c2"]))
      (create_ring_topology ["d1", "d2"]))) ∧
    (add_edge (nx_union (nx_union emptyGraph (create_mesh_topology_full ["c1", "c2"]))
        (create_ring_topology ["d1", "d2"])) "c1" "d1" ⟨10000, 1500, true, "fiber"⟩ ≠
      nx_union (nx_union emptyGraph (create_mesh_topology_full ["c1", "c2"]))
        (create_ring_topology ["d1", "d2"])) ∧
    ("d1" ∈ nodeIds (create_hybrid_topology
      [("core", ["c1", "c2"]), ("distribution", ["d1", "d2"])])) ∧
    adjB (create_hybrid_topology [("core", ["c1", "c2"]), ("distribution", ["d1", "d2"])])
      "c1" "d1" = true := by decide

/-! ## Component counting and connectivity -/

theorem componentsAux_nil (G : Graph) (fuel : Nat) : componentsAux G fuel [] = [] := by
  cases fuel <;> rfl

theorem componentsAux_ne_nil (G : Graph) (fuel : Nat) (v : String) (rest : List String) :
    componentsAux G (fuel + 1) (v :: rest) ≠ [] := by
  simp [componentsAux]

/-- The decomposition of a nonempty node list has exactly one component
iff everything is reachable from the first node. -/
theorem componentCount_eq_one_iff (G : Graph) (v : String) (rest : List String)
    (heq : nodeIds G = v :: rest) :
    componentCount G = 1 ↔ rest.filter (fun w => w ∉ reachableFrom G v) = [] := by
  unfold componentCount nx_connected_components
  rw [heq]
  show (componentsAux G (rest.length + 1) (v :: rest)).length = 1 ↔ _
  simp only [componentsAux, List.length_cons, Nat.add_left_eq_self, List.length_eq_zero]
  constructor
  · intro h
    by_contra hne
    obtain ⟨w, rest2, hw⟩ := List.exists_cons_of_ne_nil hne
    have hlen : (rest.filter (fun w => w ∉ reachableFrom G v)).length ≤ rest.length :=
      List.length_filter_le _ _
    rw [hw] at h hlen
    obtain ⟨fuel2, hfuel⟩ : ∃ f, rest.length = f + 1 := by
      cases hlenr : rest.length with
      | zero => rw [hlenr] at hlen; simp at hlen
      | succ n => exact ⟨n, rfl⟩
    rw [hfuel] at h
    exact componentsAux_ne_nil G fuel2 w rest2 h
  · intro h
    rw [h, componentsAux_nil]

theorem componentCount_pos (G : Graph) (v : String) (rest : List String)
    (heq : nodeIds G = v :: rest) : 1 ≤ componentCount G := by
  unfold componentCount nx_connected_components
  rw [heq]
  show 1 ≤ (componentsAux G (rest.length + 1) (v :: rest)).length
  simp [componentsAux]

/-- Connectivity as computed by traversal agrees with a component count
of one, on a model with at least one node. -/
theorem isConnectedB_iff_componentCount (G : Graph) (v : String) (rest : List String)
    (heq : nodeIds G = v :: rest) :
    isConnectedB G = true ↔ componentCount G = 1 := by
  rw [componentCount_eq_one_iff G v rest heq]
  unfold isConnectedB
  rw [heq]
  show (v :: rest).all (fun w => decide (w ∈ reachableFrom G v)) = true ↔ _
  rw [List.all_eq_true, List.filter_eq_nil]
  constructor
  · intro h w hw
    have := h w (List.mem_cons_of_mem _ hw)
    simp only [decide_eq_true_iff] at this
    simp [this]
  · intro h w hw
    rcases List.mem_cons.mp hw with rfl | hmem
    · simpa using mem_ball_self G _ _
    · have := h w hmem
      simp only [Bool.not_eq_true', decide_eq_false_iff_not, not_not] at this
      simpa using this

/-- C6: on a connected model, every node the articulation computation
reports disconnects the model when removed; and on a connected model
with at least three nodes, removing an unreported node leaves the model
connected. -/
theorem C6_articulation_removal (G : Graph) (hnd : NodesNodup G)
    (hconn : isConnectedB G = true) :
    (∀ v ∈ articulation_points G, isConnectedB (remove_node G v) = false) ∧
    (3 ≤ G.nodes.length → ∀ v ∈ nodeIds G, v ∉ articulation_points G →
      isConnectedB (remove_node G v) = true) := by
  constructor
  · intro v hv
    rw [articulation_points, List.mem_filter] at hv
    obtain ⟨hvmem, hlt⟩ := hv
    simp only [decide_eq_true_iff] at hlt
    obtain ⟨u, rest, heq⟩ := List.exists_cons_of_ne_nil
      (List.ne_nil_of_mem hvmem)
    have hcount : componentCount G = 1 :=
      (isConnectedB_iff_componentCount G u rest heq).mp hconn
    rw [hcount] at hlt
    -- the clone has at least two components, hence is nonempty
    cases heq2 : nodeIds (remove_node G v) with
    | nil =>
      exfalso
      have : componentCount (remove_node G v) = 0 := by
        unfold componentCount nx_connected_components
        rw [heq2]
        simp [componentsAux_nil]
      omega
    | cons u2 rest2 =>
      by_contra hcon
      rw [Bool.not_eq_false] at hcon
      have := (isConnectedB_iff_componentCount (remove_node G v) u2 rest2 heq2).mp hcon
      omega
  · intro hN v hvmem hvnot
    rw [articulation_points, List.mem_filter] at hvnot
    have hle : ¬ componentCount G < componentCount (remove_node G v) := by
      intro hlt
      exact hvnot ⟨hvmem, by simpa using hlt⟩
    obtain ⟨u, rest, heq⟩ := List.exists_cons_of_ne_nil (List.ne_nil_of_mem hvmem)
    have hcount : componentCount G = 1 :=
      (isConnectedB_iff_componentCount G u rest heq).mp hconn
    -- the clone keeps at least two nodes, hence is nonempty
    have hlen2 : 2 ≤ (nodeIds (remove_node G v)).length := by
      rw [nodeIds_remove_node]
      by_contra hsmall
      push_neg at hsmall
      -- then at most one node differs from v, contradicting |nodes| ≥ 3 and nodup
      have hsub : ∀ w ∈ nodeIds G, w = v ∨ w ∈ (nodeIds G).filter (fun w => w ≠ v) := by
        intro w hw
        by_cases hwv : w = v
        · exact Or.inl hwv
        · exact Or.inr (List.mem_filter.mpr ⟨hw, by simpa using hwv⟩)
      have hsubset : nodeIds G ⊆ v :: (nodeIds G).filter (fun w => w ≠ v) := by
        intro w hw
        rcases hsub w hw with rfl | hmem
        · exact List.mem_cons_self _ _
        · exact List.mem_cons_of_mem _ hmem
      have := (hnd.subperm hsubset).length_le
      have hNids : 3 ≤ (nodeIds G).length := by
        unfold nodeIds
        rw [List.length_map]
        exact hN
      simp only [List.length_cons] at this
      omega
    cases heq2 : nodeIds (remove_node G v) with
    | nil => rw [heq2] at hlen2; simp at hlen2
    | cons u2 rest2 =>
      rw [isConnectedB_iff_componentCount (remove_node G v) u2 rest2 heq2]
      have hpos := componentCount_pos (remove_node G v) u2 rest2 heq2
      omega

/-- Witness for C6 on the three-node bus a–b–c: removing the reported
articulation point b disconnects it; removing the unreported node a
keeps it connected. -/
theorem C6_articulation_removal_witness :
    isConnectedB (remove_node (create_bus_topology ["a", "b", "c"]) "b") = false ∧
    isConnectedB (remove_node (create_bus_topology ["a", "b", "c"]) "a") = true := by
  have h := C6_articulation_removal (create_bus_topology ["a", "b", "c"])
    (by decide) (by decide)
  exact ⟨h.1 "b" (by decide), h.2 (by decide) "a" (by decide) (by decide)⟩

/-! ## C7: articulation points and the metrics snapshot -/

theorem except_bind_ok {ε α β : Type} (a : α) (f : α → Except ε β) :
    (Except.ok a >>= f : Except ε β) = f a := rfl

/-- C7 (amended): the analysis step computes articulation points
separately from the metrics snapshot, reporting them exactly when the
model is connected; every reported node's removal increases the
component count. -/
theorem C7_analysis_articulation (G : Graph) (hne : G.nodes ≠ []) :
    ∃ r, analyze_topology G = Except.ok r ∧
      (isConnectedB G = true → r.articulation = some (articulation_points G)) ∧
      (isConnectedB G = false → r.articulation = none) ∧
      (∀ v ∈ r.articulation.getD [],
        componentCount G < componentCount (remove_node G v)) := by
  have hlen : ¬ G.nodes.length = 0 := by
    intro h0
    exact hne (List.length_eq_zero.mp h0)
  have hconn : nx_is_connected G = Except.ok (isConnectedB G) := by
    unfold nx_is_connected
    rw [if_neg hlen]
  obtain ⟨m, hm⟩ : ∃ m, add_topology_metrics G = Except.ok m :=
    ⟨_, add_topology_metrics_ok G hlen⟩
  have hok : analyze_topology G = Except.ok
      ⟨m, if isConnectedB G then some (articulation_points G) else none⟩ := by
    unfold analyze_topology
    rw [hm, except_bind_ok, hconn, except_bind_ok]
    by_cases hc : isConnectedB G = true
    · rw [if_pos hc, if_pos hc]
      rfl
    · rw [if_neg hc, if_neg (by simpa using hc)]
      rfl
  refine ⟨_, hok, ?_, ?_, ?_⟩
  · intro hc
    simp [hc]
  · intro hc
    simp [hc]
  · intro v hv
    by_cases hc : isConnectedB G = true
    · rw [if_pos hc] at hv
      simp only [Option.getD_some] at hv
      rw [articulation_points, List.mem_filter] at hv
      simpa using hv.2
    · rw [if_neg hc] at hv
      simp at hv

/-- Witness for C7's amended statement on the three-node bus. -/
theorem C7_analysis_articulation_witness :
    ∃ r, analyze_topology (create_bus_topology ["a", "b", "c"]) = Except.ok r ∧
      r.articulation = some ["b"] := by
  obtain ⟨r, hr, hconn, _, _⟩ :=
    C7_analysis_articulation (create_bus_topology ["a", "b", "c"]) (by decide)
  refine ⟨r, hr, ?_⟩
  rw [hconn (by decide)]
  decide

set_option maxHeartbeats 2000000 in
/-- C7 counterexample: two isomorphic four-node buses on different ids
produce identical metrics snapshots but different articulation-point
lists, so the snapshot cannot contain the model's articulation
points. -/
theorem C7_snapshot_no_articulation_cex :
    add_topology_metrics (create_bus_topology ["a", "b", "c", "d"]) =
      add_topology_metrics (create_bus_topology ["w", "x", "y", "z"]) ∧
    articulation_points (create_bus_topology ["a", "b", "c", "d"]) ≠
      articulation_points (create_bus_topology ["w", "x", "y", "z"]) := by decide

/-! ## C8: termination of the tree generator loop -/

/-- The loop state of `create_tree_topology`: graph, unassigned pool,
current parent frontier, level counter. -/
structure TreeState where
  g : Graph
  remaining : List String
  current : List String
  level : Nat

/-- The `while remaining_nodes and current_level_nodes` guard, negated:
the loop ends exactly when pool or frontier is exhausted. -/
def treeExitB (st : TreeState) : Bool := st.remaining.isEmpty || st.current.isEmpty

/-- One iteration of the while loop (identity on exit states). -/
def treeStep (bf : Int) (st : TreeState) : TreeState :=
  if st.remaining = [] ∨ st.current = [] then st
  else
    ⟨(processParents bf st.level st.current st.g st.remaining).1,
      (processParents bf st.level st.current st.g st.remaining).2.1,
      (processParents bf st.level st.current st.g st.remaining).2.2,
      st.level + 1⟩

def treeMeasure (st : TreeState) : Nat :=
  st.remaining.length + (if st.current = [] then 0 else 1)

theorem treeExitB_iff (st : TreeState) :
    treeExitB st = true ↔ (st.remaining = [] ∨ st.current = []) := by
  unfold treeExitB
  simp [List.isEmpty_iff]

theorem treeLoop_exit (bf : Int) (G : Graph) (remaining current : List String) (level : Nat)
    (h : remaining = [] ∨ current = []) :
    treeLoop bf G remaining current level = G := by
  unfold treeLoop
  rw [if_pos h]

theorem treeLoop_step (bf : Int) (G : Graph) (remaining current : List String) (level : Nat)
    (h : ¬(remaining = [] ∨ current = [])) :
    treeLoop bf G remaining current level =
      treeLoop bf (processParents bf level current G remaining).1
        (processParents bf level current G remaining).2.1
        (processParents bf level current G remaining).2.2 (level + 1) := by
  conv_lhs => unfold treeLoop
  rw [if_neg h]

theorem treeMeasure_decreases (bf : Int) (st : TreeState)
    (h : ¬(st.remaining = [] ∨ st.current = [])) :
    treeMeasure (treeStep bf st) < treeMeasure st := by
  rw [not_or] at h
  unfold treeStep treeMeasure
  rw [if_neg (not_or.mpr h)]
  dsimp only
  rcases le_or_lt bf 0 with hbf | hbf
  · rw [processParents_nonpos bf st.level st.current st.g st.remaining hbf]
    simp [h.2]
  · have hlt := processParents_remaining_lt bf st.level st.current st.g st.remaining hbf h.2 h.1
    have : (if st.current = [] then 0 else 1) = 1 := by rw [if_neg h.2]
    split <;> omega

theorem tree_iter_reaches_exit (bf : Int) :
    ∀ (m : Nat) (st : TreeState), treeMeasure st ≤ m →
      ∃ n, treeExitB ((treeStep bf)^[n] st) = true ∧
        treeLoop bf st.g st.remaining st.current st.level = ((treeStep bf)^[n] st).g := by
  intro m
  induction m with
  | zero =>
    intro st hle
    refine ⟨0, ?_, ?_⟩
    · rw [Function.iterate_zero_apply, treeExitB_iff]
      unfold treeMeasure at hle
      by_cases hc : st.current = []
      · exact Or.inr hc
      · rw [if_neg hc] at hle
        omega
    · rw [Function.iterate_zero_apply]
      apply treeLoop_exit
      unfold treeMeasure at hle
      by_cases hc : st.current = []
      · exact Or.inr hc
      · rw [if_neg hc] at hle
        omega
  | succ m ih =>
    intro st hle
    by_cases hexit : st.remaining = [] ∨ st.current = []
    · refine ⟨0, ?_, ?_⟩
      · rw [Function.iterate_zero_apply, treeExitB_iff]
        exact hexit
      · rw [Function.iterate_zero_apply]
        exact treeLoop_exit bf st.g st.remaining st.current st.level hexit
    · have hdec := treeMeasure_decreases bf st hexit
      obtain ⟨n, hn1, hn2⟩ := ih (treeStep bf st) (by omega)
      refine ⟨n + 1, ?_, ?_⟩
      · rw [Function.iterate_succ_apply]
        exact hn1
      · rw [Function.iterate_succ_apply]
        rw [treeLoop_step bf st.g st.remaining st.current st.level hexit]
        have hstep : treeStep bf st =
            ⟨(processParents bf st.level st.current st.g st.remaining).1,
              (processParents bf st.level st.current st.g st.remaining).2.1,
              (processParents bf st.level st.current st.g st.remaining).2.2,
              st.level + 1⟩ := by
          unfold treeStep
          rw [if_neg hexit]
        rw [hstep] at hn2 ⊢
        exact hn2

/-- C8: for every pool, frontier and integer branching factor (zero and
negative included), the tree loop terminates: it returns immediately on
an exhausted state, recurses by one step otherwise, and from every state
some finite number of steps reaches a state with the pool or the
frontier exhausted, at which the loop's result is read off. -/
theorem C8_tree_loop_terminates (bf : Int) (st : TreeState) :
    (treeExitB st = true → treeLoop bf st.g st.remaining st.current st.level = st.g) ∧
    (treeExitB st = false →
      treeLoop bf st.g st.remaining st.current st.level =
        treeLoop bf (treeStep bf st).g (treeStep bf st).remaining
          (treeStep bf st).current (treeStep bf st).level) ∧
    ∃ n, treeExitB ((treeStep bf)^[n] st) = true ∧
      treeLoop bf st.g st.remaining st.current st.level = ((treeStep bf)^[n] st).g := by
  refine ⟨?_, ?_, tree_iter_reaches_exit bf (treeMeasure st) st (le_refl _)⟩
  · intro h
    exact treeLoop_exit bf st.g st.remaining st.current st.level ((treeExitB_iff st).mp h)
  · intro h
    have hne : ¬(st.remaining = [] ∨ st.current = []) := by
      rw [← treeExitB_iff, h]
      simp
    have hstep : treeStep bf st =
        ⟨(processParents bf st.level st.current st.g st.remaining).1,
          (processParents bf st.level st.current st.g st.remaining).2.1,
          (processParents bf st.level st.current st.g st.remaining).2.2,
          st.level + 1⟩ := by
      unfold treeStep
      rw [if_neg hne]
    rw [hstep]
    exact treeLoop_step bf st.g st.remaining st.current st.level hne

/-- Witness for C8 with branching factor 0 and a nonempty pool: the
first step empties the frontier and the loop ends there. -/
theorem C8_tree_loop_terminates_witness :
    treeExitB ⟨emptyGraph, ["b", "c"], [], 1⟩ = true ∧
    treeLoop 0 emptyGraph ["b", "c"] [] 1 = emptyGraph ∧
    ∃ n, treeExitB ((treeStep 0)^[n] ⟨emptyGraph, ["b", "c"], ["a"], 1⟩) = true := by
  have h1 := C8_tree_loop_terminates 0 ⟨emptyGraph, ["b", "c"], [], 1⟩
  have h2 := C8_tree_loop_terminates 0 ⟨emptyGraph, ["b", "c"], ["a"], 1⟩
  exact ⟨by decide, h1.1 (by decide), h2.2.2.elim (fun n hn => ⟨n, hn.1⟩)⟩

/-! ## Generator construction lemmas -/

theorem edges_foldl_add_node (l : List String) (a : NodeAttrs) :
    ∀ G : Graph, (l.foldl (fun g v => add_node g v a) G).edges = G.edges := by
  induction l with
  | nil => intro G; rfl
  | cons x xs ih =>
    intro G
    rw [List.foldl_cons, ih, edges_add_node]

theorem nodeIds_foldl_add_node (l : List String) (a : NodeAttrs) :
    ∀ G : Graph, (∀ x ∈ l, x ∉ nodeIds G) → l.Nodup →
      nodeIds (l.foldl (fun g v => add_node g v a) G) = nodeIds G ++ l := by
  induction l with
  | nil => intro G _ _; simp
  | cons x xs ih =>
    intro G hfresh hnd
    rw [List.foldl_cons, ih _ ?_ (List.nodup_cons.mp hnd).2]
    · rw [nodeIds_add_node_new _ _ _ (hfresh x (List.mem_cons_self _ _))]
      simp
    · intro y hy
      rw [mem_nodeIds_add_node]
      push_neg
      refine ⟨hfresh y (List.mem_cons_of_mem _ hy), ?_⟩
      intro heq
      exact (List.nodup_cons.mp hnd).1 (heq ▸ hy)

theorem adjB_of_edges_nil (G : Graph) (h : G.edges = []) (a b : String) :
    adjB G a b = false := by
  unfold adjB
  rw [h]
  rfl

/-- Folding `add_edge` over fresh, pairwise-distinct unordered pairs
whose endpoints are present appends exactly those edges. -/
theorem foldl_add_edge_spec (attrs : EdgeAttrs) :
    ∀ (ps : List (String × String)) (G : Graph),
      (∀ p ∈ ps, p.1 ∈ nodeIds G ∧ p.2 ∈ nodeIds G) →
      (∀ p ∈ ps, adjB G p.1 p.2 = false) →
      ps.Pairwise (fun p q => ¬((p.1 = q.1 ∧ p.2 = q.2) ∨ (p.1 = q.2 ∧ p.2 = q.1))) →
      (ps.foldl (fun g q => add_edge g q.1 q.2 attrs) G).edges
          = G.edges ++ ps.map (fun q => (q.1, q.2, attrs)) ∧
        nodeIds (ps.foldl (fun g q => add_edge g q.1 q.2 attrs) G) = nodeIds G := by
  intro ps
  induction ps with
  | nil => intro G _ _ _; simp
  | cons p ps ih =>
    intro G hmem hfree hpw
    have hp := hmem p (List.mem_cons_self _ _)
    have hedges : (add_edge G p.1 p.2 attrs).edges = G.edges ++ [(p.1, p.2, attrs)] :=
      edges_add_edge_new G p.1 p.2 attrs hp.1 hp.2 (hfree p (List.mem_cons_self _ _))
    have hids : nodeIds (add_edge G p.1 p.2 attrs) = nodeIds G :=
      nodeIds_add_edge_mem G p.1 p.2 attrs hp.1 hp.2
    obtain ⟨hph, hptl⟩ := List.pairwise_cons.mp hpw
    have ihres := ih (add_edge G p.1 p.2 attrs) ?_ ?_ hptl
    · rw [List.foldl_cons]
      constructor
      · rw [ihres.1, hedges]
        simp
      · rw [ihres.2, hids]
    · intro q hq
      rw [hids]
      exact hmem q (List.mem_cons_of_mem _ hq)
    · intro q hq
      show (add_edge G p.1 p.2 attrs).edges.any _ = false
      rw [hedges, List.any_append]
      have h1 : adjB G q.1 q.2 = false := hfree q (List.mem_cons_of_mem _ hq)
      unfold adjB at h1
      rw [h1]
      have h2 := hph q hq
      push_neg at h2
      simp only [List.any_cons, List.any_nil, Bool.or_false, Bool.false_or,
        Bool.or_eq_false_iff, Bool.and_eq_false_iff, decide_eq_false_iff_not]
      constructor
      · by_cases hA : p.1 = q.1
        · exact Or.inr (h2.1 hA)
        · exact Or.inl hA
      · by_cases hB : p.1 = q.2
        · exact Or.inr (h2.2 hB)
        · exact Or.inl hB

/-! ### Counting helpers for degrees -/

theorem length_filterMap_eq_countP {α β : Type} (f : α → Option β) (l : List α) :
    (l.filterMap f).length = l.countP (fun x => (f x).isSome) := by
  induction l with
  | nil => rfl
  | cons x xs ih =>
    cases hfx : f x <;>
      simp [List.filterMap_cons, hfx, List.countP_cons, ih]

theorem countP_or_disjoint {α : Type} (p q : α → Bool) (l : List α)
    (h : ∀ x ∈ l, ¬(p x = true ∧ q x = true)) :
    l.countP (fun x => p x || q x) = l.countP p + l.countP q := by
  induction l with
  | nil => rfl
  | cons x xs ih =>
    rw [List.countP_cons, List.countP_cons, List.countP_cons,
      ih (fun y hy => h y (List.mem_cons_of_mem _ hy))]
    by_cases hp : p x = true <;> by_cases hq : q x = true
    · exact absurd ⟨hp, hq⟩ (h x (List.mem_cons_self _ _))
    · simp [hp, hq]
      omega
    · simp [hp, hq]
      omega
    · simp [hp, hq]

theorem countP_eq_one_of_nodup_mem {l : List Nat} (k : Nat) (hnd : l.Nodup) (hk : k ∈ l) :
    l.countP (fun i => decide (i = k)) = 1 := by
  have hcongr : l.countP (fun i => decide (i = k)) = l.countP (fun i => i == k) := by
    apply List.countP_congr
    intro x _
    by_cases h : x = k <;> simp [h]
  rw [hcongr]
  exact List.count_eq_one_of_mem hnd hk

theorem succ_mod_eq (i N : Nat) (h : i < N) :
    (i + 1) % N = if i + 1 = N then 0 else i + 1 := by
  by_cases he : i + 1 = N
  · rw [if_pos he, he, Nat.mod_self]
  · rw [if_neg he, Nat.mod_eq_of_lt (by omega)]

/-! ## C4: the ring generator -/

/-- The edge attributes used by `create_ring_topology`. -/
def ringAttrs : EdgeAttrs := ⟨1000, 1500, true, "serial"⟩

/-- The router attributes used by `create_ring_topology`. -/
def routerAttrs : NodeAttrs := { device_type := some "router" }

/-- C4: for at least three distinct ids the ring has exactly `N` edges,
every listed node has degree exactly 2, and the ring is connected; for
fewer than three ids the generator returns the empty model. -/
theorem C4_ring_topology (nodes : List String) (hnd : nodes.Nodup)
    (hlen : 3 ≤ nodes.length) :
    (create_ring_topology nodes).edges.length = nodes.length ∧
    (∀ v ∈ nodes, degree (create_ring_topology nodes) v = 2) ∧
    isConnectedB (create_ring_topology nodes) = true ∧
    (∀ ns : List String, ns.length < 3 → create_ring_topology ns = emptyGraph) := by
  set N := nodes.length with hN
  have hNpos : 0 < N := by omega
  set nd : Nat → String := fun i => nodes.getD i "" with hnd_def
  set pf : Nat → String × String := fun i => (nd i, nd ((i + 1) % N)) with hpf
  set G0 : Graph := nodes.foldl (fun g v => add_node g v routerAttrs) emptyGraph with hG0
  have hG0edges : G0.edges = [] := by
    rw [hG0, edges_foldl_add_node]
    rfl
  have hG0ids : nodeIds G0 = nodes := by
    rw [hG0, nodeIds_foldl_add_node nodes routerAttrs emptyGraph
      (fun x _ => by simp [nodeIds, emptyGraph]) hnd]
    rfl
  have h1 : create_ring_topology nodes =
      ((List.range N).map pf).foldl (fun g q => add_edge g q.1 q.2 ringAttrs) G0 := by
    unfold create_ring_topology
    rw [if_neg (by omega)]
    exact (List.foldl_map pf (fun g q => add_edge g q.1 q.2 ringAttrs) (List.range N) G0).symm
  have hmem_nd : ∀ i, i < N → nd i ∈ nodes := by
    intro i hi
    rw [hnd_def]
    show nodes.getD i "" ∈ nodes
    rw [List.getD_eq_getElem _ _ hi]
    exact List.getElem_mem _
  have hinj : ∀ i j, i < N → j < N → nd i = nd j → i = j := by
    intro i j hi hj hij
    have hij' : nodes.getD i "" = nodes.getD j "" := hij
    rw [List.getD_eq_getElem _ _ hi, List.getD_eq_getElem _ _ hj] at hij'
    exact (hnd.getElem_inj_iff).mp hij'
  have hspec := foldl_add_edge_spec ringAttrs ((List.range N).map pf) G0 ?_ ?_ ?_
  ·
    obtain ⟨hEdges, hIds⟩ := hspec
    rw [hG0edges, List.nil_append] at hEdges
    rw [hG0ids] at hIds
    rw [h1] at *
    -- edge count
    have hcount : (((List.range N).map pf).foldl
        (fun g q => add_edge g q.1 q.2 ringAttrs) G0).edges.length = N := by
      rw [hEdges]
      simp
    -- edges as indexed map
    have hEdges2 : (((List.range N).map pf).foldl
        (fun g q => add_edge g q.1 q.2 ringAttrs) G0).edges =
        (List.range N).map (fun i => ((pf i).1, (pf i).2, ringAttrs)) := by
      rw [hEdges, List.map_map]
      rfl
    set GR : Graph := ((List.range N).map pf).foldl
      (fun g q => add_edge g q.1 q.2 ringAttrs) G0 with hGR
    -- well-formedness
    have hwf : EdgesWf GR := by
      intro e he
      rw [hEdges2] at he
      obtain ⟨i, hi, rfl⟩ := List.mem_map.mp he
      rw [List.mem_range] at hi
      rw [hIds]
      exact ⟨hmem_nd i hi, hmem_nd _ (Nat.mod_lt _ hNpos)⟩
    have hndG : NodesNodup GR := by
      show (nodeIds GR).Nodup
      rw [hIds]
      exact hnd
    -- reachability along the cycle
    have hadj : ∀ k, k + 1 < N → adjB GR (nd k) (nd (k + 1)) = true := by
      intro k hk
      unfold adjB
      rw [List.any_eq_true]
      refine ⟨((pf k).1, (pf k).2, ringAttrs), ?_, ?_⟩
      · rw [hEdges2]
        exact List.mem_map.mpr ⟨k, List.mem_range.mpr (by omega), rfl⟩
      · have hmod : (k + 1) % N = k + 1 := Nat.mod_eq_of_lt hk
        show (((pf k).1 = nd k && (pf k).2 = nd (k+1)) ||
          ((pf k).1 = nd (k+1) && (pf k).2 = nd k)) = true
        rw [hpf]
        simp [hmod]
    have hreach : ∀ k, k < N → Reach GR (nd 0) (nd k) := by
      intro k
      induction k with
      | zero => intro _; exact Relation.ReflTransGen.refl
      | succ k ihk =>
        intro hk1
        exact Relation.ReflTransGen.tail (ihk (by omega)) (hadj k hk1)
    have hnodes_ne : nodes ≠ [] := by
      intro h0
      rw [h0] at hN
      simp [hN] at hlen
    obtain ⟨v0, rest, hcons⟩ := List.exists_cons_of_ne_nil hnodes_ne
    have hv0 : v0 = nd 0 := by
      show v0 = nodes.getD 0 ""
      rw [hcons]
      rfl
    have hconn : isConnectedB GR = true := by
      unfold isConnectedB
      rw [hIds, hcons]
      show (v0 :: rest).all (fun w => decide (w ∈ reachableFrom GR v0)) = true
      rw [List.all_eq_true]
      intro w hw
      rw [decide_eq_true_iff]
      have hwmem : w ∈ nodes := by rw [hcons]; exact hw
      obtain ⟨k, hk, hkw⟩ := List.mem_iff_getElem.mp hwmem
      have hwnd : w = nd k := by
        rw [hnd_def]
        show w = nodes.getD k ""
        rw [List.getD_eq_getElem _ _ hk, hkw]
      have hv0mem : nd 0 ∈ nodeIds GR := by
        rw [hIds]
        exact hmem_nd 0 (by omega)
      rw [hwnd, hv0]
      exact mem_reachableFrom_of_reach hwf hndG hv0mem (hreach k hk)
    -- degrees
    have hdeg : ∀ v ∈ nodes, degree GR v = 2 := by
      intro v hv
      obtain ⟨k, hk, hkv⟩ := List.mem_iff_getElem.mp hv
      have hvnd : v = nd k := by
        rw [hnd_def]
        show v = nodes.getD k ""
        rw [List.getD_eq_getElem _ _ hk, hkv]
      set k' : Nat := if k = 0 then N - 1 else k - 1 with hk'
      have hk'lt : k' < N := by
        rw [hk']
        split <;> omega
      have hkk' : k ≠ k' := by
        rw [hk']
        split <;> omega
      have hmodiff : ∀ i, i < N → ((i + 1) % N = k ↔ i = k') := by
        intro i hi
        rw [succ_mod_eq i N hi, hk']
        constructor
        · intro h
          split at h <;> split <;> omega
        · intro h
          split at h <;> split <;> omega
      unfold degree neighbors
      rw [hEdges2, List.filterMap_map, length_filterMap_eq_countP]
      have hstep : List.countP (fun i => decide (i = k) || decide (i = k'))
          (List.range N) = 2 := by
        rw [countP_or_disjoint _ _ _ ?_]
        · rw [countP_eq_one_of_nodup_mem k (List.nodup_range N) (List.mem_range.mpr hk),
            countP_eq_one_of_nodup_mem k' (List.nodup_range N) (List.mem_range.mpr hk'lt)]
        · intro i _
          rintro ⟨hik, hik'⟩
          rw [decide_eq_true_iff] at hik hik'
          exact hkk' (hik ▸ hik')
      rw [← hstep]
      apply List.countP_congr
      intro i hiR
      rw [List.mem_range] at hiR
      show ((if (pf i).1 = v then some (pf i).2
          else if (pf i).2 = v then some (pf i).1 else none).isSome = true) ↔
        (decide (i = k) || decide (i = k')) = true
      have hfst : ((pf i).1 = v) ↔ i = k := by
        rw [hvnd]
        show nd i = nd k ↔ i = k
        exact ⟨hinj i k hiR hk, fun h => h ▸ rfl⟩
      have hsnd : ((pf i).2 = v) ↔ i = k' := by
        rw [hvnd]
        show nd ((i + 1) % N) = nd k ↔ i = k'
        rw [← hmodiff i hiR]
        exact ⟨hinj _ k (Nat.mod_lt _ hNpos) hk, fun h => h ▸ rfl⟩
      by_cases h1 : (pf i).1 = v
      · rw [if_pos h1]
        simp [hfst.mp h1]
      · rw [if_neg h1]
        by_cases h2 : (pf i).2 = v
        · rw [if_pos h2]
          simp [hsnd.mp h2]
        · rw [if_neg h2]
          have hnk : ¬ i = k := fun h => h1 (hfst.mpr h)
          have hnk' : ¬ i = k' := fun h => h2 (hsnd.mpr h)
          simp [hnk, hnk']
    exact ⟨hcount, hdeg, hconn, fun ns hns => by
      unfold create_ring_topology
      rw [if_pos hns]⟩
  · -- endpoints registered
    intro p hp
    obtain ⟨i, hi, rfl⟩ := List.mem_map.mp hp
    rw [List.mem_range] at hi
    rw [hG0ids]
    exact ⟨hmem_nd i hi, hmem_nd _ (Nat.mod_lt _ hNpos)⟩
  · -- no pre-existing edges
    intro p _
    exact adjB_of_edges_nil G0 hG0edges _ _
  · -- pairwise distinct unordered pairs
    rw [List.pairwise_map]
    rw [List.pairwise_iff_getElem]
    intro i j hi hj hij
    rw [List.length_range] at hi hj
    rw [List.getElem_range, List.getElem_range]
    rintro (⟨hA1, hA2⟩ | ⟨hB1, hB2⟩)
    · -- same orientation: i = j
      have : i = j := hinj i j hi hj hA1
      omega
    · -- opposite orientation: i = (j+1) % N and (i+1) % N = j
      have hB1' : i = (j + 1) % N := hinj i _ hi (Nat.mod_lt _ hNpos) hB1
      have hB2' : (i + 1) % N = j := hinj _ j (Nat.mod_lt _ hNpos) hj hB2
      rw [succ_mod_eq j N hj] at hB1'
      rw [succ_mod_eq i N hi] at hB2'
      split at hB1' <;> split at hB2' <;> omega

/-- Witness for C4 on the three-node ring. -/
theorem C4_ring_topology_witness :
    (create_ring_topology ["a", "b", "c"]).edges.length = 3 ∧
    degree (create_ring_topology ["a", "b", "c"]) "a" = 2 ∧
    isConnectedB (create_ring_topology ["a", "b", "c"]) = true ∧
    create_ring_topology ["a", "b"] = emptyGraph := by
  have h := C4_ring_topology ["a", "b", "c"] (by decide) (by decide)
  exact ⟨h.1, h.2.1 "a" (by decide), h.2.2.1, h.2.2.2 ["a", "b"] (by decide)⟩

/-! ## Decimal numeral lemmas

The spine-leaf generator builds node names with Python f-strings, i.e.
`Nat.repr` in the embedding.  Injectivity of `Nat.repr` (and that its
characters are digits) gives distinctness of the generated names. -/

/-- Decimal digits of a positive numeral, most significant first
(agrees with `Nat.toDigits 10`). -/
def natDigits (n : Nat) : List Char :=
  if h : n < 10 then [Nat.digitChar n]
  else natDigits (n / 10) ++ [Nat.digitChar (n % 10)]
decreasing_by exact Nat.div_lt_self (by omega) (by omega)

theorem toDigitsCore_eq_natDigits (fuel : Nat) :
    ∀ (n : Nat) (ds : List Char), n < fuel →
      Nat.toDigitsCore 10 fuel n ds = natDigits n ++ ds := by
  induction fuel with
  | zero => intro n ds h; omega
  | succ fuel ih =>
    intro n ds h
    show (if n / 10 = 0 then Nat.digitChar (n % 10) :: ds
      else Nat.toDigitsCore 10 fuel (n / 10) (Nat.digitChar (n % 10) :: ds)) = _
    by_cases hdiv : n / 10 = 0
    · rw [if_pos hdiv]
      have hn : n < 10 := by omega
      unfold natDigits
      rw [dif_pos hn, Nat.mod_eq_of_lt hn]
      rfl
    · rw [if_neg hdiv]
      have hge : 10 ≤ n := by
        by_contra hlt
        exact hdiv (Nat.div_eq_of_lt (by omega))
      have hlt : n / 10 < fuel := by
        have := Nat.div_lt_self (show 0 < n by omega) (show 1 < 10 by omega)
        omega
      rw [ih (n / 10) _ hlt]
      conv_rhs => unfold natDigits
      rw [dif_neg (by omega)]
      simp

theorem repr_data (n : Nat) : (Nat.repr n).data = natDigits n := by
  show (Nat.toDigits 10 n).asString.data = natDigits n
  unfold Nat.toDigits
  rw [toDigitsCore_eq_natDigits (n + 1) n [] (Nat.lt_succ_self n)]
  simp [List.asString]

theorem digitChar_toNat : ∀ d, d < 10 → (Nat.digitChar d).toNat = 48 + d := by decide

/-- Decimal decoding, a left inverse of `natDigits`. -/
def decodeDigits (l : List Char) : Nat :=
  l.foldl (fun acc c => acc * 10 + (c.toNat - 48)) 0

theorem decodeDigits_append_last (l : List Char) (c : Char) :
    decodeDigits (l ++ [c]) = decodeDigits l * 10 + (c.toNat - 48) := by
  unfold decodeDigits
  rw [List.foldl_append]
  rfl

theorem decode_natDigits : ∀ n, decodeDigits (natDigits n) = n := by
  intro n
  induction n using Nat.strong_induction_on with
  | _ n ih =>
    by_cases h : n < 10
    · unfold natDigits
      rw [dif_pos h]
      show 0 * 10 + ((Nat.digitChar n).toNat - 48) = n
      rw [digitChar_toNat n h]
      omega
    · unfold natDigits
      rw [dif_neg h]
      rw [decodeDigits_append_last,
        ih (n / 10) (Nat.div_lt_self (by omega) (by omega)),
        digitChar_toNat (n % 10) (Nat.mod_lt _ (by omega))]
      have := Nat.div_add_mod n 10
      omega

theorem natDigits_inj {a b : Nat} (h : natDigits a = natDigits b) : a = b := by
  have ha := decode_natDigits a
  have hb := decode_natDigits b
  rw [h] at ha
  omega

theorem repr_inj {a b : Nat} (h : Nat.repr a = Nat.repr b) : a = b := by
  apply natDigits_inj
  rw [← repr_data, ← repr_data, h]

theorem digitChar_isDigit : ∀ d, d < 10 → (Nat.digitChar d).isDigit = true := by decide

theorem natDigits_isDigit : ∀ n, ∀ c ∈ natDigits n, c.isDigit = true := by
  intro n
  induction n using Nat.strong_induction_on with
  | _ n ih =>
    intro c hc
    by_cases h : n < 10
    · unfold natDigits at hc
      rw [dif_pos h] at hc
      rw [List.mem_singleton] at hc
      subst hc
      exact digitChar_isDigit n h
    · unfold natDigits at hc
      rw [dif_neg h] at hc
      rcases List.mem_append.mp hc with hc | hc
      · exact ih (n / 10) (Nat.div_lt_self (by omega) (by omega)) c hc
      · rw [List.mem_singleton] at hc
        subst hc
        exact digitChar_isDigit _ (Nat.mod_lt _ (by omega))

theorem dash_not_mem_natDigits (n : Nat) : '-' ∉ natDigits n := by
  intro h
  have := natDigits_isDigit n '-' h
  simp [Char.isDigit] at this

/-! ### Distinctness of the generated spine/leaf/host names -/

theorem spineName_data (i : Nat) :
    (spineName i).data = 's' :: ("pine".data ++ natDigits (i + 1)) := by
  unfold spineName
  rw [String.data_append, repr_data]
  have h5 : "spine".data = 's' :: "pine".data := by decide
  rw [h5]
  rfl

theorem leafName_data (i : Nat) :
    (leafName i).data = 'l' :: ("eaf".data ++ natDigits (i + 1)) := by
  unfold leafName
  rw [String.data_append, repr_data]
  have h4 : "leaf".data = 'l' :: "eaf".data := by decide
  rw [h4]
  rfl

theorem hostName_data (l : String) (i : Nat) :
    (hostName l i).data = l.data ++ ('-' :: ("host".data ++ natDigits (i + 1))) := by
  unfold hostName
  rw [String.data_append, String.data_append, repr_data]
  have hh : "-host".data = '-' :: "host".data := by decide
  rw [hh]
  simp

theorem spineName_inj {i j : Nat} (h : spineName i = spineName j) : i = j := by
  have hd := congrArg String.data h
  rw [spineName_data, spineName_data] at hd
  simp only [List.cons.injEq, List.append_cancel_left_eq] at hd
  have := natDigits_inj hd.2
  omega

theorem leafName_inj {i j : Nat} (h : leafName i = leafName j) : i = j := by
  have hd := congrArg String.data h
  rw [leafName_data, leafName_data] at hd
  simp only [List.cons.injEq, List.append_cancel_left_eq] at hd
  have := natDigits_inj hd.2
  omega

theorem spineName_ne_leafName (i j : Nat) : spineName i ≠ leafName j := by
  intro h
  have hd := congrArg String.data h
  rw [spineName_data, leafName_data] at hd
  simp only [List.cons.injEq] at hd
  exact absurd hd.1 (by decide)

theorem dash_not_mem_leafName (j : Nat) : '-' ∉ (leafName j).data := by
  rw [leafName_data]
  intro h
  rcases List.mem_cons.mp h with h | h
  · exact absurd h (by decide)
  · rcases List.mem_append.mp h with h | h
    · exact absurd h (by decide)
    · exact dash_not_mem_natDigits _ h

theorem dash_not_mem_spineName (i : Nat) : '-' ∉ (spineName i).data := by
  rw [spineName_data]
  intro h
  rcases List.mem_cons.mp h with h | h
  · exact absurd h (by decide)
  · rcases List.mem_append.mp h with h | h
    · exact absurd h (by decide)
    · exact dash_not_mem_natDigits _ h

theorem dash_mem_hostName (l : String) (i : Nat) : '-' ∈ (hostName l i).data := by
  rw [hostName_data]
  simp

theorem spineName_ne_hostName (k j i : Nat) : spineName k ≠ hostName (leafName j) i := by
  intro h
  have hmem := dash_mem_hostName (leafName j) i
  rw [← h] at hmem
  exact dash_not_mem_spineName k hmem

theorem leafName_ne_hostName (k j i : Nat) : leafName k ≠ hostName (leafName j) i := by
  intro h
  have hmem := dash_mem_hostName (leafName j) i
  rw [← h] at hmem
  exact dash_not_mem_leafName k hmem

theorem hostName_inj {l l' : String} {i i' : Nat} (hl : '-' ∉ l.data) (hl' : '-' ∉ l'.data)
    (h : hostName l i = hostName l' i') : l = l' ∧ i = i' := by
  have hd := congrArg String.data h
  rw [hostName_data, hostName_data] at hd
  have hsplit := congrArg (splitFirst '-') hd
  rw [splitFirst_append _ _ _ hl, splitFirst_append _ _ _ hl'] at hsplit
  simp only [Prod.mk.injEq] at hsplit
  refine ⟨String.ext hsplit.1, ?_⟩
  have h2 := List.append_cancel_left hsplit.2
  have := natDigits_inj h2
  omega

/-! ### Index products for the generator's nested loops -/

def prodPairs {α β : Type} : List α → List β → List (α × β)
  | [], _ => []
  | a :: as, l2 => l2.map (fun b => (a, b)) ++ prodPairs as l2

theorem prodPairs_length {α β : Type} (l1 : List α) (l2 : List β) :
    (prodPairs l1 l2).length = l1.length * l2.length := by
  induction l1 with
  | nil => simp [prodPairs]
  | cons a as ih =>
    show (l2.map (fun b => (a, b)) ++ prodPairs as l2).length = _
    rw [List.length_append, List.length_map, ih, List.length_cons]
    ring

theorem mem_prodPairs {α β : Type} {l1 : List α} {l2 : List β} {x : α × β}
    (h : x ∈ prodPairs l1 l2) : x.1 ∈ l1 ∧ x.2 ∈ l2 := by
  induction l1 with
  | nil => cases h
  | cons a as ih =>
    rcases List.mem_append.mp h with h | h
    · obtain ⟨b, hb, rfl⟩ := List.mem_map.mp h
      exact ⟨List.mem_cons_self _ _, hb⟩
    · exact ⟨List.mem_cons_of_mem _ (ih h).1, (ih h).2⟩

theorem foldl_foldl_prodPairs {α β γ : Type} (f : γ → α → β → γ) (l1 : List α) (l2 : List β) :
    ∀ init, l1.foldl (fun g a => l2.foldl (fun g2 b => f g2 a b) g) init =
      (prodPairs l1 l2).foldl (fun g p => f g p.1 p.2) init := by
  induction l1 with
  | nil => intro _; rfl
  | cons a as ih =>
    intro init
    rw [List.foldl_cons]
    show _ = (l2.map (fun b => (a, b)) ++ prodPairs as l2).foldl (fun g p => f g p.1 p.2) init
    rw [List.foldl_append, List.foldl_map, ih]

theorem prodPairs_map_left {α α' β : Type} (f : α → α') (l1 : List α) (l2 : List β) :
    prodPairs (l1.map f) l2 = (prodPairs l1 l2).map (fun q => (f q.1, q.2)) := by
  induction l1 with
  | nil => rfl
  | cons a as ih =>
    show l2.map (fun b => (f a, b)) ++ prodPairs (as.map f) l2 =
      (l2.map (fun b => (a, b)) ++ prodPairs as l2).map (fun q => (f q.1, q.2))
    rw [List.map_append, List.map_map, ih]
    rfl

theorem prodPairs_map_right {α β β' : Type} (g : β → β') (l1 : List α) (l2 : List β) :
    prodPairs l1 (l2.map g) = (prodPairs l1 l2).map (fun q => (q.1, g q.2)) := by
  induction l1 with
  | nil => rfl
  | cons a as ih =>
    show (l2.map g).map (fun b => (a, b)) ++ prodPairs as (l2.map g) =
      (l2.map (fun b => (a, b)) ++ prodPairs as l2).map (fun q => (q.1, g q.2))
    rw [List.map_append, List.map_map, List.map_map, ih]
    rfl

theorem prodPairs_pairwise_ne {α β : Type} (l1 : List α) (l2 : List β)
    (h1 : l1.Nodup) (h2 : l2.Nodup) :
    (prodPairs l1 l2).Pairwise (fun x y => ¬(x.1 = y.1 ∧ x.2 = y.2)) := by
  induction l1 with
  | nil => exact List.Pairwise.nil
  | cons a as ih =>
    show (l2.map (fun b => (a, b)) ++ prodPairs as l2).Pairwise _
    rw [List.pairwise_append]
    refine ⟨?_, ih (List.nodup_cons.mp h1).2, ?_⟩
    · rw [List.pairwise_map]
      exact h2.imp (fun hne hc => hne hc.2)
    · intro x hx y hy
      obtain ⟨b, _, rfl⟩ := List.mem_map.mp hx
      have hy1 : y.1 ∈ as := (mem_prodPairs hy).1
      intro hc
      apply (List.nodup_cons.mp h1).1
      rw [show a = y.1 from hc.1]
      exact hy1

theorem countP_fst_prodPairs {α β : Type} [DecidableEq α] (l1 : List α) (l2 : List β)
    (a : α) (h1 : l1.Nodup) (ha : a ∈ l1) :
    (prodPairs l1 l2).countP (fun q => decide (q.1 = a)) = l2.length := by
  induction l1 with
  | nil => cases ha
  | cons b bs ih =>
    show (l2.map (fun c => (b, c)) ++ prodPairs bs l2).countP _ = _
    rw [List.countP_append, List.countP_map]
    rcases List.mem_cons.mp ha with rfl | hmem
    · have hz : (prodPairs bs l2).countP (fun q => decide (q.1 = a)) = 0 := by
        rw [List.countP_eq_zero]
        intro x hx hxa
        rw [decide_eq_true_iff] at hxa
        exact (List.nodup_cons.mp h1).1 (hxa ▸ (mem_prodPairs hx).1)
      have hone : l2.countP ((fun q : α × β => decide (q.1 = a)) ∘ (fun c => (a, c))) =
          l2.countP (fun _ => true) := by
        apply List.countP_congr
        intro c _
        simp
      rw [hz, hone, List.countP_true]
      omega
    · have hab : ¬ b = a := fun he => (List.nodup_cons.mp h1).1 (he ▸ hmem)
      have hz : l2.countP ((fun q : α × β => decide (q.1 = a)) ∘ (fun c => (b, c))) = 0 := by
        rw [List.countP_eq_zero]
        intro c _ hc
        simp only [Function.comp_apply, decide_eq_true_iff] at hc
        exact hab hc
      rw [hz, ih (List.nodup_cons.mp h1).2 hmem]
      omega

theorem countP_eq_one_of_nodup_mem' {α : Type} [DecidableEq α] {l : List α} (k : α)
    (hnd : l.Nodup) (hk : k ∈ l) : l.countP (fun i => decide (i = k)) = 1 := by
  have hcongr : l.countP (fun i => decide (i = k)) = l.countP (fun i => i == k) := by
    apply List.countP_congr
    intro x _
    by_cases h : x = k <;> simp [h]
  rw [hcongr]
  exact List.count_eq_one_of_mem hnd hk

theorem countP_snd_prodPairs {α β : Type} [DecidableEq β] (l1 : List α) (l2 : List β)
    (b : β) (h2 : l2.Nodup) (hb : b ∈ l2) :
    (prodPairs l1 l2).countP (fun q => decide (q.2 = b)) = l1.length := by
  induction l1 with
  | nil => rfl
  | cons a as ih =>
    show (l2.map (fun c => (a, c)) ++ prodPairs as l2).countP _ = _
    rw [List.countP_append, List.countP_map, ih]
    have hone : l2.countP ((fun q : α × β => decide (q.2 = b)) ∘ (fun c => (a, c))) =
        l2.countP (fun i => decide (i = b)) := by
      apply List.countP_congr
      intro c _
      simp
    rw [hone, countP_eq_one_of_nodup_mem' b h2 hb]
    simp [Nat.add_comm]

theorem adjB_false_of_not_mem (G : Graph) (hwf : EdgesWf G) (a b : String)
    (hb : b ∉ nodeIds G) : adjB G a b = false := by
  by_contra h
  rw [Bool.not_eq_false] at h
  exact hb (adjB_mem_nodeIds G hwf h).2

theorem filterMap_eq_nil_of_none {α β : Type} {f : α → Option β} {l : List α}
    (h : ∀ x ∈ l, f x = none) : l.filterMap f = [] := by
  induction l with
  | nil => rfl
  | cons x xs ih =>
    rw [List.filterMap_cons, h x (List.mem_cons_self _ _)]
    exact ih (fun y hy => h y (List.mem_cons_of_mem _ hy))

/-- Folding the host-attachment step (`add_node` then `add_edge`) over
pairs `(parent, fresh child)` appends exactly those nodes and edges. -/
theorem foldl_add_host_spec (attrs : EdgeAttrs) (hat : NodeAttrs) :
    ∀ (ps : List (String × String)) (G : Graph),
      EdgesWf G →
      (∀ p ∈ ps, p.1 ∈ nodeIds G) →
      (∀ p ∈ ps, p.2 ∉ nodeIds G) →
      ps.Pairwise (fun p q => p.2 ≠ q.2) →
      ((ps.foldl (fun g p => add_edge (add_node g p.2 hat) p.1 p.2 attrs) G).edges
          = G.edges ++ ps.map (fun q => (q.1, q.2, attrs)) ∧
        nodeIds (ps.foldl (fun g p => add_edge (add_node g p.2 hat) p.1 p.2 attrs) G)
          = nodeIds G ++ ps.map (fun q => q.2) ∧
        EdgesWf (ps.foldl (fun g p => add_edge (add_node g p.2 hat) p.1 p.2 attrs) G)) := by
  intro ps
  induction ps with
  | nil =>
    intro G hwf _ _ _
    exact ⟨by simp, by simp, hwf⟩
  | cons p ps ih =>
    intro G hwf hpar hfresh hpw
    have hp2 : p.2 ∉ nodeIds G := hfresh p (List.mem_cons_self _ _)
    have hp1 : p.1 ∈ nodeIds G := hpar p (List.mem_cons_self _ _)
    have hids1 : nodeIds (add_node G p.2 hat) = nodeIds G ++ [p.2] :=
      nodeIds_add_node_new G p.2 hat hp2
    have hedg1 : (add_node G p.2 hat).edges = G.edges := edges_add_node G p.2 hat
    have hwf1 : EdgesWf (add_node G p.2 hat) := edgesWf_add_node G p.2 hat hwf
    have hadj : adjB (add_node G p.2 hat) p.1 p.2 = false := by
      rw [adjB_only_edges _ G hedg1]
      exact adjB_false_of_not_mem G hwf p.1 p.2 hp2
    have hp1' : p.1 ∈ nodeIds (add_node G p.2 hat) := by
      rw [hids1]
      exact List.mem_append_left _ hp1
    have hp2' : p.2 ∈ nodeIds (add_node G p.2 hat) := by
      rw [hids1]
      simp
    have hedg2 : (add_edge (add_node G p.2 hat) p.1 p.2 attrs).edges =
        G.edges ++ [(p.1, p.2, attrs)] := by
      rw [edges_add_edge_new _ _ _ _ hp1' hp2' hadj, hedg1]
    have hids2 : nodeIds (add_edge (add_node G p.2 hat) p.1 p.2 attrs) =
        nodeIds G ++ [p.2] := by
      rw [nodeIds_add_edge_mem _ _ _ _ hp1' hp2', hids1]
    have hwf2 : EdgesWf (add_edge (add_node G p.2 hat) p.1 p.2 attrs) :=
      edgesWf_add_edge _ _ _ _ hwf1
    obtain ⟨hpw1, hpw2⟩ := List.pairwise_cons.mp hpw
    have ihres := ih (add_edge (add_node G p.2 hat) p.1 p.2 attrs) hwf2 ?_ ?_ hpw2
    · rw [List.foldl_cons]
      refine ⟨?_, ?_, ihres.2.2⟩
      · rw [ihres.1, hedg2]
        simp
      · rw [ihres.2.1, hids2]
        simp
    · intro q hq
      rw [hids2]
      exact List.mem_append_left _ (hpar q (List.mem_cons_of_mem _ hq))
    · intro q hq
      rw [hids2, List.mem_append]
      push_neg
      exact ⟨hfresh q (List.mem_cons_of_mem _ hq),
        by simpa using (hpw1 q hq).symm⟩

theorem countP_map_true {α β : Type} (p : β → Bool) (f : α → β) (l : List α)
    (h : ∀ a, p (f a) = true) : (l.map f).countP p = l.length := by
  induction l with
  | nil => rfl
  | cons x xs ih =>
    rw [List.map_cons, List.countP_cons, ih]
    simp [h x]

theorem countP_map_false {α β : Type} (p : β → Bool) (f : α → β) (l : List α)
    (h : ∀ a, p (f a) = false) : (l.map f).countP p = 0 := by
  induction l with
  | nil => rfl
  | cons x xs ih =>
    rw [List.map_cons, List.countP_cons, ih]
    simp [h x]

/-! ## C5: the spine-leaf generator -/

/-- C5: the spine-leaf fabric has exactly `S·L` core edges at
10000 Mbps / MTU 9000 and `2·L` host edges at 1000 Mbps / MTU 1500;
every spine has degree `L` and every leaf degree `S + 2`. -/
theorem C5_spine_leaf_topology (S L : Nat) :
    ((create_spine_leaf_topology S L).edges.filter
        (fun e => e.2.2.bandwidth = 10000 && e.2.2.mtu = 9000)).length = S * L ∧
    ((create_spine_leaf_topology S L).edges.filter
        (fun e => e.2.2.bandwidth = 1000 && e.2.2.mtu = 1500)).length = 2 * L ∧
    (∀ i, i < S → degree (create_spine_leaf_topology S L) (spineName i) = L) ∧
    (∀ j, j < L → degree (create_spine_leaf_topology S L) (leafName j) = S + 2) := by
  set spine_nodes : List String := (List.range S).map spineName with hspineN
  set leaf_nodes : List String := (List.range L).map leafName with hleafN
  have hspineInj : Function.Injective spineName := fun _ _ h => spineName_inj h
  have hleafInj : Function.Injective leafName := fun _ _ h => leafName_inj h
  have hspineNodup : spine_nodes.Nodup := (List.nodup_range S).map hspineInj
  have hleafNodup : leaf_nodes.Nodup := (List.nodup_range L).map hleafInj
  set G0 : Graph := spine_nodes.foldl (fun g s => add_node g s spineAttrs) emptyGraph with hG0
  set G1 : Graph := leaf_nodes.foldl (fun g l => add_node g l leafAttrs) G0 with hG1
  have hG0ids : nodeIds G0 = spine_nodes := by
    rw [hG0, nodeIds_foldl_add_node spine_nodes spineAttrs emptyGraph
      (fun x _ => by simp [nodeIds, emptyGraph]) hspineNodup]
    rfl
  have hG0edges : G0.edges = [] := by
    rw [hG0, edges_foldl_add_node]
    rfl
  have hleaf_fresh : ∀ x ∈ leaf_nodes, x ∉ nodeIds G0 := by
    intro x hx
    rw [hG0ids]
    obtain ⟨j, _, rfl⟩ := List.mem_map.mp hx
    intro hmem
    obtain ⟨i, _, heq⟩ := List.mem_map.mp hmem
    exact spineName_ne_leafName i j heq
  have hG1ids : nodeIds G1 = spine_nodes ++ leaf_nodes := by
    rw [hG1, nodeIds_foldl_add_node leaf_nodes leafAttrs G0 hleaf_fresh hleafNodup, hG0ids]
  have hG1edges : G1.edges = [] := by
    rw [hG1, edges_foldl_add_node, hG0edges]
  set coreIdx : List (Nat × Nat) := prodPairs (List.range S) (List.range L) with hcoreIdx
  set hostIdx : List (Nat × Nat) := prodPairs (List.range L) (List.range 2) with hhostIdx
  set corePairs : List (String × String) :=
    coreIdx.map (fun q => (spineName q.1, leafName q.2)) with hcorePairs
  set hostPairs : List (String × String) :=
    hostIdx.map (fun q => (leafName q.1, hostName (leafName q.1) q.2)) with hhostPairs
  have hprod_core : prodPairs spine_nodes leaf_nodes = corePairs := by
    rw [hspineN, hleafN, prodPairs_map_left, prodPairs_map_right, List.map_map, hcorePairs,
      hcoreIdx]
    rfl
  -- the core double fold as a fold over index pairs
  set G2 : Graph := spine_nodes.foldl (fun g s =>
    leaf_nodes.foldl (fun g2 l => add_edge g2 s l coreLinkAttrs) g) G1 with hG2
  have hG2fold : G2 = corePairs.foldl (fun g q => add_edge g q.1 q.2 coreLinkAttrs) G1 := by
    rw [hG2, foldl_foldl_prodPairs (fun g a b => add_edge g a b coreLinkAttrs), hprod_core]
  have hcore_mem : ∀ p ∈ corePairs, p.1 ∈ nodeIds G1 ∧ p.2 ∈ nodeIds G1 := by
    intro p hp
    obtain ⟨q, hq, rfl⟩ := List.mem_map.mp hp
    have hq12 := mem_prodPairs hq
    rw [hG1ids]
    constructor
    · exact List.mem_append_left _ (List.mem_map.mpr ⟨q.1, hq12.1, rfl⟩)
    · exact List.mem_append_right _ (List.mem_map.mpr ⟨q.2, hq12.2, rfl⟩)
  have hcore_pw : corePairs.Pairwise
      (fun p q => ¬((p.1 = q.1 ∧ p.2 = q.2) ∨ (p.1 = q.2 ∧ p.2 = q.1))) := by
    rw [hcorePairs, List.pairwise_map]
    refine (prodPairs_pairwise_ne (List.range S) (List.range L)
      (List.nodup_range S) (List.nodup_range L)).imp ?_
    intro x y hne hc
    rcases hc with ⟨h1, h2⟩ | ⟨h1, h2⟩
    · exact hne ⟨spineName_inj h1, leafName_inj h2⟩
    · exact spineName_ne_leafName x.1 y.2 h1
  have hspec2 := foldl_add_edge_spec coreLinkAttrs corePairs G1 hcore_mem
    (fun p _ => adjB_of_edges_nil G1 hG1edges _ _) hcore_pw
  rw [← hG2fold] at hspec2
  obtain ⟨hG2edges, hG2ids⟩ := hspec2
  rw [hG1edges, List.nil_append] at hG2edges
  rw [hG1ids] at hG2ids
  have hG2wf : EdgesWf G2 := by
    intro e he
    rw [hG2edges] at he
    obtain ⟨p, hp, rfl⟩ := List.mem_map.mp he
    have := hcore_mem p hp
    rw [hG2ids, ← hG1ids]
    exact this
  -- the host double fold as a fold over index pairs
  have hfinal : create_spine_leaf_topology S L =
      hostPairs.foldl (fun g p => add_edge (add_node g p.2 hostAttrs) p.1 p.2 hostLinkAttrs)
        G2 := by
    show leaf_nodes.foldl (fun g l => (List.range 2).foldl (fun g2 i =>
      add_edge (add_node g2 (hostName l i) hostAttrs) l (hostName l i) hostLinkAttrs) g) G2 = _
    rw [foldl_foldl_prodPairs (fun g l i =>
      add_edge (add_node g (hostName l i) hostAttrs) l (hostName l i) hostLinkAttrs)]
    rw [hleafN, prodPairs_map_left, List.foldl_map]
    rw [hhostPairs, List.foldl_map]
  have hhost_par : ∀ p ∈ hostPairs, p.1 ∈ nodeIds G2 := by
    intro p hp
    obtain ⟨q, hq, rfl⟩ := List.mem_map.mp hp
    rw [hG2ids]
    exact List.mem_append_right _ (List.mem_map.mpr ⟨q.1, (mem_prodPairs hq).1, rfl⟩)
  have hhost_fresh : ∀ p ∈ hostPairs, p.2 ∉ nodeIds G2 := by
    intro p hp
    obtain ⟨q, hq, rfl⟩ := List.mem_map.mp hp
    rw [hG2ids, List.mem_append]
    push_neg
    constructor
    · intro hmem
      obtain ⟨i, _, heq⟩ := List.mem_map.mp hmem
      exact spineName_ne_hostName i q.1 q.2 heq
    · intro hmem
      obtain ⟨i, _, heq⟩ := List.mem_map.mp hmem
      exact leafName_ne_hostName i q.1 q.2 heq
  have hhost_pw : hostPairs.Pairwise (fun p q => p.2 ≠ q.2) := by
    rw [hhostPairs, List.pairwise_map]
    refine (prodPairs_pairwise_ne (List.range L) (List.range 2)
      (List.nodup_range L) (List.nodup_range 2)).imp ?_
    intro x y hne heq
    obtain ⟨hl, hi⟩ := hostName_inj (dash_not_mem_leafName x.1) (dash_not_mem_leafName y.1) heq
    exact hne ⟨leafName_inj hl, hi⟩
  have hspec3 := foldl_add_host_spec hostLinkAttrs hostAttrs hostPairs G2 hG2wf
    hhost_par hhost_fresh hhost_pw
  rw [← hfinal] at hspec3
  obtain ⟨hFedges, _, _⟩ := hspec3
  rw [hG2edges] at hFedges
  -- edge counts by attribute
  have hlen_core : corePairs.length = S * L := by
    rw [hcorePairs, List.length_map, hcoreIdx, prodPairs_length,
      List.length_range, List.length_range]
  have hlen_host : hostPairs.length = L * 2 := by
    rw [hhostPairs, List.length_map, hhostIdx, prodPairs_length,
      List.length_range, List.length_range]
  refine ⟨?_, ?_, ?_, ?_⟩
  · rw [hFedges, ← List.countP_eq_length_filter, List.countP_append,
      countP_map_true (fun e : String × String × EdgeAttrs =>
          e.2.2.bandwidth = 10000 && e.2.2.mtu = 9000)
        (fun q : String × String => (q.1, q.2, coreLinkAttrs)) corePairs
        (fun a => by simp [coreLinkAttrs]),
      countP_map_false (fun e : String × String × EdgeAttrs =>
          e.2.2.bandwidth = 10000 && e.2.2.mtu = 9000)
        (fun q : String × String => (q.1, q.2, hostLinkAttrs)) hostPairs
        (fun a => by simp [hostLinkAttrs]),
      hlen_core]
    omega
  · rw [hFedges, ← List.countP_eq_length_filter, List.countP_append,
      countP_map_false (fun e : String × String × EdgeAttrs =>
          e.2.2.bandwidth = 1000 && e.2.2.mtu = 1500)
        (fun q : String × String => (q.1, q.2, coreLinkAttrs)) corePairs
        (fun a => by simp [coreLinkAttrs]),
      countP_map_true (fun e : String × String × EdgeAttrs =>
          e.2.2.bandwidth = 1000 && e.2.2.mtu = 1500)
        (fun q : String × String => (q.1, q.2, hostLinkAttrs)) hostPairs
        (fun a => by simp [hostLinkAttrs]),
      hlen_host]
    omega
  · -- spine degrees
    intro k hk
    unfold degree neighbors
    rw [hFedges, List.filterMap_append]
    have hhost_none : (hostPairs.map (fun q => (q.1, q.2, hostLinkAttrs))).filterMap
        (fun e => if e.1 = spineName k then some e.2.1
          else if e.2.1 = spineName k then some e.1 else none) = [] := by
      apply filterMap_eq_nil_of_none
      intro e he
      obtain ⟨p, hp, rfl⟩ := List.mem_map.mp he
      obtain ⟨q, hq, rfl⟩ := List.mem_map.mp hp
      show (if leafName q.1 = spineName k then _
        else if hostName (leafName q.1) q.2 = spineName k then _ else none) = none
      rw [if_neg (fun h => spineName_ne_leafName k q.1 h.symm),
        if_neg (fun h => spineName_ne_hostName k q.1 q.2 h.symm)]
    rw [hhost_none, List.append_nil]
    rw [hcorePairs, List.map_map, List.filterMap_map, length_filterMap_eq_countP]
    have hcnt : List.countP (fun q : Nat × Nat => decide (q.1 = k)) coreIdx = L := by
      rw [hcoreIdx, countP_fst_prodPairs (List.range S) (List.range L) k
        (List.nodup_range S) (List.mem_range.mpr hk), List.length_range]
    rw [← hcnt, hcoreIdx]
    apply List.countP_congr
    intro q _
    show ((if spineName q.1 = spineName k then some (leafName q.2)
      else if leafName q.2 = spineName k then some (spineName q.1) else none).isSome = true) ↔
      decide (q.1 = k) = true
    by_cases h1 : spineName q.1 = spineName k
    · rw [if_pos h1]
      simp [spineName_inj h1]
    · rw [if_neg h1, if_neg (fun h => spineName_ne_leafName k q.2 h.symm)]
      have : ¬ q.1 = k := fun h => h1 (h ▸ rfl)
      simp [this]
  · -- leaf degrees
    intro k hk
    unfold degree neighbors
    rw [hFedges, List.filterMap_append, List.length_append]
    have hcore_len : ((corePairs.map (fun q => (q.1, q.2, coreLinkAttrs))).filterMap
        (fun e => if e.1 = leafName k then some e.2.1
          else if e.2.1 = leafName k then some e.1 else none)).length = S := by
      rw [hcorePairs, List.map_map, List.filterMap_map, length_filterMap_eq_countP]
      have hcnt : List.countP (fun q : Nat × Nat => decide (q.2 = k)) coreIdx = S := by
        rw [hcoreIdx, countP_snd_prodPairs (List.range S) (List.range L) k
          (List.nodup_range L) (List.mem_range.mpr hk), List.length_range]
      rw [← hcnt, hcoreIdx]
      apply List.countP_congr
      intro q _
      show ((if spineName q.1 = leafName k then some (leafName q.2)
        else if leafName q.2 = leafName k then some (spineName q.1) else none).isSome = true) ↔
        decide (q.2 = k) = true
      rw [if_neg (spineName_ne_leafName q.1 k)]
      by_cases h2 : leafName q.2 = leafName k
      · rw [if_pos h2]
        simp [leafName_inj h2]
      · rw [if_neg h2]
        have : ¬ q.2 = k := fun h => h2 (h ▸ rfl)
        simp [this]
    have hhost_len : ((hostPairs.map (fun q => (q.1, q.2, hostLinkAttrs))).filterMap
        (fun e => if e.1 = leafName k then some e.2.1
          else if e.2.1 = leafName k then some e.1 else none)).length = 2 := by
      rw [hhostPairs, List.map_map, List.filterMap_map, length_filterMap_eq_countP]
      have hcnt : List.countP (fun q : Nat × Nat => decide (q.1 = k)) hostIdx = 2 := by
        rw [hhostIdx, countP_fst_prodPairs (List.range L) (List.range 2) k
          (List.nodup_range L) (List.mem_range.mpr hk), List.length_range]
      rw [← hcnt, hhostIdx]
      apply List.countP_congr
      intro q _
      show ((if leafName q.1 = leafName k then some (hostName (leafName q.1) q.2)
        else if hostName (leafName q.1) q.2 = leafName k then some (leafName q.1)
        else none).isSome = true) ↔ decide (q.1 = k) = true
      by_cases h1 : leafName q.1 = leafName k
      · rw [if_pos h1]
        simp [leafName_inj h1]
      · rw [if_neg h1, if_neg (fun h => leafName_ne_hostName k q.1 q.2 h.symm)]
        have : ¬ q.1 = k := fun h => h1 (h ▸ rfl)
        simp [this]
    rw [hcore_len, hhost_len]

/-- Witness for C5 at a 2-spine, 3-leaf fabric. -/
theorem C5_spine_leaf_topology_witness :
    degree (create_spine_leaf_topology 2 3) (spineName 0) = 3 ∧
    degree (create_spine_leaf_topology 2 3) (leafName 0) = 4 := by
  have h := C5_spine_leaf_topology 2 3
  exact ⟨h.2.2.1 0 (by decide), h.2.2.2 0 (by decide)⟩

end NetSim
